import Mathlib

/-!
Verification of the checkers rules engine and adversarial search core
(board model, move rules, evaluator, minimax with alpha-beta pruning).

The definitions below are a shallow embedding of the TypeScript/JavaScript
sources: `types.ts`, `game/board.ts`, `game/rules.js`, `ai/evaluation.ts`
and `ai/minimax.js`.  JavaScript numbers holding board coordinates and
scores are modelled as `Int`; the values `Infinity` and `-Infinity` used by
the search are modelled by working in `Score := WithBot (WithTop Int)`.
In-place mutation of the board is modelled by explicit state passing: every
mutating function returns the updated board.  `console.log`-style output is
ignored.  JavaScript array writes at out-of-range indices (which would throw
or silently extend the array) are modelled as no-ops; all writes performed
on the 8×8 boards the game manipulates are in range, where the two semantics
agree.
-/

/-- The two players, `'human' | 'agatha'` from types.ts. -/
inductive Player where
  | human
  | agatha
deriving DecidableEq, Repr

/-- Piece rank, `'man' | 'king'` from types.ts. -/
inductive PieceType where
  | man
  | king
deriving DecidableEq, Repr

/-- A board position `{row, col}` (0-indexed); JavaScript numbers are
modelled as `Int` since intermediate positions may be negative. -/
structure Pos where
  row : Int
  col : Int
deriving DecidableEq, Repr

/-- A checker piece `{player, type, position}` from types.ts. -/
structure Piece where
  player : Player
  type : PieceType
  position : Pos
deriving DecidableEq, Repr

/-- A move `{from, to, captures, isPromotion}` from types.ts.  The source
fields `from` and `to` are reserved words in Lean and are rendered
`fromPos` and `toPos`. -/
structure Move where
  fromPos : Pos
  toPos : Pos
  captures : List Pos
  isPromotion : Bool
deriving DecidableEq, Repr

/-- A diagonal direction `{rowDelta, colDelta}` from rules.js. -/
structure Direction where
  rowDelta : Int
  colDelta : Int
deriving DecidableEq, Repr

/-- `BOARD_SIZE` from types.ts. -/
def BOARD_SIZE : Int := 8

/-- `positionsEqual` from types.ts. -/
def positionsEqual (a b : Pos) : Bool :=
  a.row == b.row && a.col == b.col

/-- `isValidPosition` from types.ts. -/
def isValidPosition (pos : Pos) : Bool :=
  0 ≤ pos.row && pos.row < BOARD_SIZE && 0 ≤ pos.col && pos.col < BOARD_SIZE

/-- `isPlayableSquare` from types.ts; `%` is JavaScript remainder, which
truncates toward zero, i.e. `Int.tmod`. -/
def isPlayableSquare (row col : Int) : Bool :=
  (row + col).tmod 2 == 1

/-- The board, `(Piece | null)[][]` from the sources. -/
abbrev Board := List (List (Option Piece))

/-- Raw indexed read `board[r][c]`, totalised: a missing row or cell reads
as empty (on the 8×8 boards of the game every 0 ≤ r,c < 8 read is in
range). -/
def getCell (board : Board) (r c : Nat) : Option Piece :=
  (board.getD r []).getD c none

/-- Raw indexed write `board[r][c] = v`, totalised to a no-op when out of
range (see the header note). -/
def setCellRaw (board : Board) (r c : Nat) (v : Option Piece) : Board :=
  board.set r ((board.getD r []).set c v)

/-- `getPieceAt` from board.ts. -/
def getPieceAt (board : Board) (pos : Pos) : Option Piece :=
  if isValidPosition pos then getCell board pos.row.toNat pos.col.toNat
  else none

/-- Write at a `Pos`, used by the mutating operations below; the source
writes `board[pos.row][pos.col]` directly and all such writes target valid
positions on 8×8 boards. -/
def setCellAt (board : Board) (pos : Pos) (v : Option Piece) : Board :=
  if isValidPosition pos then setCellRaw board pos.row.toNat pos.col.toNat v
  else board

/-- `cloneBoard` from board.ts: rebuilds every row, cell, piece and
position object. -/
def cloneBoard (board : Board) : Board :=
  board.map fun row =>
    row.map fun cell =>
      match cell with
      | some p => some { player := p.player, type := p.type,
                         position := { row := p.position.row, col := p.position.col } }
      | none => none

/-- `shouldPromote` from board.ts. -/
def shouldPromote (piece : Piece) (position : Pos) : Bool :=
  if piece.type == PieceType.king then false
  else if piece.player == Player.human && position.row == 0 then true
  else if piece.player == Player.agatha && position.row == BOARD_SIZE - 1 then true
  else false

/-- `removePieceAt` from board.ts; returns the updated board together with
the removed piece (the source mutates in place and returns the piece). -/
def removePieceAt (board : Board) (pos : Pos) : Board × Option Piece :=
  match getPieceAt board pos with
  | none => (board, none)
  | some piece => (setCellAt board pos none, some piece)

/-- `movePiece` from board.ts: clears the source square, updates the
piece's stored position, promotes if the landing square is the proper back
rank, and writes the piece at the destination. -/
def movePiece (board : Board) (fromP toP : Pos) : Board × Option Piece :=
  match getPieceAt board fromP with
  | none => (board, none)
  | some piece =>
    let b1 := setCellAt board fromP none
    let piece' : Piece :=
      { player := piece.player
        type := if shouldPromote piece toP then PieceType.king else piece.type
        position := toP }
    let b2 := setCellAt b1 toP (some piece')
    (b2, some piece')

/-- `getOpponent` from board.ts. -/
def getOpponent (player : Player) : Player :=
  match player with
  | Player.human => Player.agatha
  | Player.agatha => Player.human

/-- `getForwardDirection` from board.ts. -/
def getForwardDirection (player : Player) : Int :=
  match player with
  | Player.human => -1
  | Player.agatha => 1

/-- `getPlayerPieces` from board.ts: row-major scan of the grid. -/
def getPlayerPieces (board : Board) (player : Player) : List Piece :=
  (List.range 8).flatMap fun r =>
    (List.range 8).filterMap fun c =>
      match getCell board r c with
      | some piece => if piece.player == player then some piece else none
      | none => none

/-- `countPieces` from board.ts. -/
def countPieces (board : Board) (player : Player) : Nat :=
  (getPlayerPieces board player).length

/-- `createInitialBoard` from board.ts. -/
def createInitialBoard : Board :=
  (List.range 8).map fun r =>
    (List.range 8).map fun c =>
      if isPlayableSquare r c then
        if r < 3 then
          some { player := Player.agatha, type := PieceType.man,
                 position := { row := r, col := c } }
        else if r > 4 then
          some { player := Player.human, type := PieceType.man,
                 position := { row := r, col := c } }
        else none
      else none

/-- `validateBoard` from board.ts: 8×8 shape, light squares empty, and
each stored piece position matching its cell. -/
def validateBoard (board : Board) : Bool :=
  board.length == 8 &&
  (List.range 8).all fun r =>
    (board.getD r []).length == 8 &&
    (List.range 8).all fun c =>
      match getCell board r c with
      | none => true
      | some piece =>
        isPlayableSquare r c && positionsEqual piece.position { row := r, col := c }

/-- `ALL_DIRECTIONS` from rules.js (up-left, up-right, down-left,
down-right). -/
def ALL_DIRECTIONS : List Direction :=
  [ { rowDelta := -1, colDelta := -1 },
    { rowDelta := -1, colDelta := 1 },
    { rowDelta := 1, colDelta := -1 },
    { rowDelta := 1, colDelta := 1 } ]

/-- `getValidDirections` from rules.js. -/
def getValidDirections (piece : Piece) : List Direction :=
  if piece.type == PieceType.king then ALL_DIRECTIONS
  else ALL_DIRECTIONS.filter fun dir => dir.rowDelta == getForwardDirection piece.player

/-- `getSimpleMoves` from rules.js: the push-inside-a-loop is rendered as
`filterMap` over the same direction list, preserving order. -/
def getSimpleMoves (board : Board) (piece : Piece) : List Move :=
  (getValidDirections piece).filterMap fun dir =>
    let toP : Pos := { row := piece.position.row + dir.rowDelta,
                       col := piece.position.col + dir.colDelta }
    if isValidPosition toP ∧ getPieceAt board toP = none then
      some { fromPos := piece.position, toPos := toP, captures := [],
             isPromotion := shouldPromote piece toP }
    else none

/-- `getSingleCaptures` from rules.js (the `console.warn` on a
piece/board mismatch is ignored; the early return is kept). -/
def getSingleCaptures (board : Board) (piece : Piece) : List Move :=
  match getPieceAt board piece.position with
  | none => []
  | some actualPiece =>
    if actualPiece.player ≠ piece.player then []
    else
      (getValidDirections piece).filterMap fun dir =>
        let jumpedPos : Pos := { row := piece.position.row + dir.rowDelta,
                                 col := piece.position.col + dir.colDelta }
        let landingPos : Pos := { row := piece.position.row + 2 * dir.rowDelta,
                                  col := piece.position.col + 2 * dir.colDelta }
        if isValidPosition jumpedPos ∧ isValidPosition landingPos then
          match getPieceAt board jumpedPos with
          | some jumpedPiece =>
            if jumpedPiece.player = getOpponent piece.player ∧
               getPieceAt board landingPos = none then
              some { fromPos := piece.position, toPos := landingPos,
                     captures := [jumpedPos],
                     isPromotion := shouldPromote piece landingPos }
            else none
          | none => none
        else none


/-- Weight of a cell (1 when occupied); helper for the termination measure
of the multi-jump recursion. -/
def cellWeight : Option Piece → Nat
  | none => 0
  | some _ => 1

/-- Total number of pieces on the 8×8 playing area; the well-founded
measure for `findMultiJumps` (each jump removes one jumped piece). -/
def countTotal (board : Board) : Nat :=
  ∑ rc ∈ Finset.range 8 ×ˢ Finset.range 8, cellWeight (getCell board rc.1 rc.2)

theorem cloneBoard_eq (board : Board) : cloneBoard board = board := by
  unfold cloneBoard
  conv_rhs => rw [← List.map_id board]
  refine List.map_congr_left ?_
  intro row _
  show _ = id row
  conv_rhs => rw [show id row = row from rfl, ← List.map_id row]
  refine List.map_congr_left ?_
  intro cell _
  cases cell with
  | none => rfl
  | some p => rfl

theorem getCell_setCellRaw_ne (board : Board) (r c r' c' : Nat) (v : Option Piece)
    (h : r ≠ r' ∨ c ≠ c') :
    getCell (setCellRaw board r c v) r' c' = getCell board r' c' := by
  unfold getCell setCellRaw
  rcases eq_or_ne r r' with rfl | hr
  · have hc : c ≠ c' := by tauto
    by_cases hl : r < board.length
    · simp only [List.getD_eq_getElem?_getD, List.getElem?_set_self hl, Option.getD_some,
        List.getElem?_set_ne hc]
    · rw [List.set_eq_of_length_le (Nat.le_of_not_lt hl)]
  · simp only [List.getD_eq_getElem?_getD, List.getElem?_set_ne hr]

theorem getCell_some_lt (board : Board) (r c : Nat) (p : Piece)
    (h : getCell board r c = some p) :
    r < board.length ∧ c < (board.getD r []).length := by
  unfold getCell at h
  have hr : r < board.length := by
    by_contra hl
    have hrow : board.getD r [] = [] := by
      simp only [List.getD_eq_getElem?_getD, List.getElem?_eq_none (Nat.le_of_not_lt hl)]
      rfl
    rw [hrow] at h
    simp [List.getD] at h
  refine ⟨hr, ?_⟩
  by_contra hl
  rw [List.getD_eq_getElem?_getD (board.getD r []),
    List.getElem?_eq_none (Nat.le_of_not_lt hl)] at h
  simp at h

theorem getCell_setCellRaw_self (board : Board) (r c : Nat) (v : Option Piece)
    (hr : r < board.length) (hc : c < (board.getD r []).length) :
    getCell (setCellRaw board r c v) r c = v := by
  unfold getCell setCellRaw
  have h1 : (board.set r ((board.getD r []).set c v)).getD r [] = (board.getD r []).set c v := by
    simp only [List.getD_eq_getElem?_getD, List.getElem?_set_self hr, Option.getD_some]
  rw [h1]
  simp only [List.getD_eq_getElem?_getD, List.getElem?_set_self (by simpa using hc),
    Option.getD_some]

theorem length_setCellRaw (board : Board) (r c : Nat) (v : Option Piece) :
    (setCellRaw board r c v).length = board.length := by
  unfold setCellRaw
  exact List.length_set board r _

theorem row_length_setCellRaw (board : Board) (r c r' : Nat) (v : Option Piece) :
    ((setCellRaw board r c v).getD r' []).length = (board.getD r' []).length := by
  unfold setCellRaw
  rcases eq_or_ne r r' with rfl | hr
  · by_cases hl : r < board.length
    · simp only [List.getD_eq_getElem?_getD, List.getElem?_set_self hl, Option.getD_some,
        List.length_set]
    · rw [List.set_eq_of_length_le (Nat.le_of_not_lt hl)]
  · simp only [List.getD_eq_getElem?_getD, List.getElem?_set_ne hr]

theorem cellWeight_le_one (o : Option Piece) : cellWeight o ≤ 1 := by
  cases o <;> simp [cellWeight]

theorem countTotal_congr (b1 b2 : Board)
    (h : ∀ r c, r < 8 → c < 8 → getCell b1 r c = getCell b2 r c) :
    countTotal b1 = countTotal b2 := by
  unfold countTotal
  refine Finset.sum_congr rfl ?_
  intro rc hrc
  rw [Finset.mem_product, Finset.mem_range, Finset.mem_range] at hrc
  rw [h rc.1 rc.2 hrc.1 hrc.2]

theorem countTotal_decomp (board : Board) (r c : Nat) (hr : r < 8) (hc : c < 8) :
    countTotal board = cellWeight (getCell board r c) +
      ∑ rc ∈ (Finset.range 8 ×ˢ Finset.range 8).erase (r, c),
        cellWeight (getCell board rc.1 rc.2) := by
  have hmem : ((r, c) : Nat × Nat) ∈ Finset.range 8 ×ˢ Finset.range 8 := by
    rw [Finset.mem_product]
    exact ⟨Finset.mem_range.mpr hr, Finset.mem_range.mpr hc⟩
  unfold countTotal
  exact (Finset.add_sum_erase _ (fun rc : Nat × Nat => cellWeight (getCell board rc.1 rc.2)) hmem).symm

theorem countTotal_erase_set (board : Board) (r c : Nat) (v : Option Piece) :
    ∑ rc ∈ (Finset.range 8 ×ˢ Finset.range 8).erase (r, c),
      cellWeight (getCell (setCellRaw board r c v) rc.1 rc.2) =
    ∑ rc ∈ (Finset.range 8 ×ˢ Finset.range 8).erase (r, c),
      cellWeight (getCell board rc.1 rc.2) := by
  refine Finset.sum_congr rfl ?_
  intro rc hrc'
  have hne : rc ≠ (r, c) := Finset.ne_of_mem_erase hrc'
  have hd : r ≠ rc.1 ∨ c ≠ rc.2 := by
    by_contra hcon
    push_neg at hcon
    exact hne (Prod.ext hcon.1.symm hcon.2.symm)
  rw [getCell_setCellRaw_ne board r c rc.1 rc.2 v hd]

theorem countTotal_set_none (board : Board) (r c : Nat) (p : Piece)
    (h : getCell board r c = some p) (hr : r < 8) (hc : c < 8) :
    countTotal (setCellRaw board r c none) + 1 = countTotal board := by
  have hlt := getCell_some_lt board r c p h
  rw [countTotal_decomp board r c hr hc, countTotal_decomp (setCellRaw board r c none) r c hr hc,
    countTotal_erase_set board r c none, h, getCell_setCellRaw_self board r c none hlt.1 hlt.2]
  simp [cellWeight]
  omega

theorem countTotal_set_le (board : Board) (r c : Nat) (v : Option Piece) :
    countTotal (setCellRaw board r c v) ≤ countTotal board + 1 := by
  by_cases hrc : r < 8 ∧ c < 8
  · rw [countTotal_decomp board r c hrc.1 hrc.2,
      countTotal_decomp (setCellRaw board r c v) r c hrc.1 hrc.2,
      countTotal_erase_set board r c v]
    have h1 := cellWeight_le_one (getCell (setCellRaw board r c v) r c)
    omega
  · have heq : countTotal (setCellRaw board r c v) = countTotal board := by
      refine countTotal_congr _ _ ?_
      intro r' c' hr' hc'
      refine getCell_setCellRaw_ne board r c r' c' v ?_
      by_contra hcon
      push_neg at hcon
      rw [hcon.1, hcon.2] at hrc
      exact hrc ⟨hr', hc'⟩
    omega

theorem valid_bounds (pos : Pos) (h : isValidPosition pos = true) :
    0 ≤ pos.row ∧ pos.row < 8 ∧ 0 ≤ pos.col ∧ pos.col < 8 := by
  simp only [isValidPosition, BOARD_SIZE, Bool.and_eq_true, decide_eq_true_eq] at h
  omega

theorem valid_toNat_lt (pos : Pos) (h : isValidPosition pos = true) :
    pos.row.toNat < 8 ∧ pos.col.toNat < 8 := by
  have hb := valid_bounds pos h
  omega

theorem valid_ne_toNat (p q : Pos) (hp : isValidPosition p = true)
    (hq : isValidPosition q = true) (hne : p ≠ q) :
    p.row.toNat ≠ q.row.toNat ∨ p.col.toNat ≠ q.col.toNat := by
  have hbp := valid_bounds p hp
  have hbq := valid_bounds q hq
  by_contra hcon
  push_neg at hcon
  refine hne ?_
  have hr : p.row = q.row := by omega
  have hc : p.col = q.col := by omega
  cases p
  cases q
  simp_all

theorem getPieceAt_some_valid (board : Board) (pos : Pos) (p : Piece)
    (h : getPieceAt board pos = some p) : isValidPosition pos = true := by
  unfold getPieceAt at h
  by_contra hv
  rw [if_neg hv] at h
  exact Option.noConfusion h

theorem getPieceAt_eq_getCell (board : Board) (pos : Pos)
    (h : isValidPosition pos = true) :
    getPieceAt board pos = getCell board pos.row.toNat pos.col.toNat := by
  unfold getPieceAt
  rw [if_pos h]

theorem getPieceAt_setCellAt_ne (board : Board) (pos pos' : Pos) (v : Option Piece)
    (hne : pos ≠ pos') :
    getPieceAt (setCellAt board pos v) pos' = getPieceAt board pos' := by
  unfold setCellAt
  by_cases hv : isValidPosition pos = true
  · rw [if_pos hv]
    by_cases hv' : isValidPosition pos' = true
    · rw [getPieceAt_eq_getCell _ _ hv', getPieceAt_eq_getCell _ _ hv']
      exact getCell_setCellRaw_ne board _ _ _ _ v (valid_ne_toNat pos pos' hv hv' hne)
    · unfold getPieceAt
      rw [if_neg hv', if_neg hv']
  · rw [if_neg hv]

theorem countTotal_setCellAt_le (board : Board) (pos : Pos) (v : Option Piece) :
    countTotal (setCellAt board pos v) ≤ countTotal board + 1 := by
  unfold setCellAt
  by_cases hv : isValidPosition pos = true
  · rw [if_pos hv]
    exact countTotal_set_le board _ _ v
  · rw [if_neg hv]
    omega

theorem countTotal_setCellAt_none (board : Board) (pos : Pos) (p : Piece)
    (h : getPieceAt board pos = some p) :
    countTotal (setCellAt board pos none) + 1 = countTotal board := by
  have hv := getPieceAt_some_valid board pos p h
  have hcell : getCell board pos.row.toNat pos.col.toNat = some p := by
    rw [← getPieceAt_eq_getCell board pos hv]
    exact h
  have hlt := valid_toNat_lt pos hv
  unfold setCellAt
  rw [if_pos hv]
  exact countTotal_set_none board _ _ p hcell hlt.1 hlt.2

theorem countTotal_movePiece_le (board : Board) (fromP toP : Pos) :
    countTotal (movePiece board fromP toP).1 ≤ countTotal board := by
  unfold movePiece
  cases hf : getPieceAt board fromP with
  | none => simp
  | some piece =>
    simp only
    have h1 := countTotal_setCellAt_none board fromP piece hf
    have h2 := countTotal_setCellAt_le (setCellAt board fromP none) toP
      (some { player := piece.player,
              type := if shouldPromote piece toP then PieceType.king else piece.type,
              position := toP })
    omega

theorem getPieceAt_movePiece_ne (board : Board) (fromP toP pos : Pos)
    (h1 : pos ≠ fromP) (h2 : pos ≠ toP) :
    getPieceAt (movePiece board fromP toP).1 pos = getPieceAt board pos := by
  unfold movePiece
  cases hf : getPieceAt board fromP with
  | none => rfl
  | some piece =>
    simp only
    rw [getPieceAt_setCellAt_ne _ _ _ _ (fun he => h2 he.symm),
      getPieceAt_setCellAt_ne _ _ _ _ (fun he => h1 he.symm)]

theorem countTotal_removePieceAt_lt (board : Board) (pos : Pos) (p : Piece)
    (h : getPieceAt board pos = some p) :
    countTotal (removePieceAt board pos).1 < countTotal board := by
  unfold removePieceAt
  rw [h]
  simp only
  have := countTotal_setCellAt_none board pos p h
  omega

theorem mem_getValidDirections (piece : Piece) (dir : Direction)
    (h : dir ∈ getValidDirections piece) : dir ∈ ALL_DIRECTIONS := by
  unfold getValidDirections at h
  split at h
  · exact h
  · exact List.mem_of_mem_filter h

theorem dir_delta (dir : Direction) (h : dir ∈ ALL_DIRECTIONS) :
    (dir.rowDelta = -1 ∨ dir.rowDelta = 1) ∧ (dir.colDelta = -1 ∨ dir.colDelta = 1) := by
  simp only [ALL_DIRECTIONS, List.mem_cons, List.not_mem_nil, or_false] at h
  rcases h with h | h | h | h <;> subst h <;> simp

theorem mem_getSingleCaptures {board : Board} {piece : Piece} {m : Move}
    (h : m ∈ getSingleCaptures board piece) :
    ∃ dir ∈ getValidDirections piece,
      ∃ actual, getPieceAt board piece.position = some actual ∧
        actual.player = piece.player ∧
        m.fromPos = piece.position ∧
        m.toPos = { row := piece.position.row + 2 * dir.rowDelta,
                    col := piece.position.col + 2 * dir.colDelta } ∧
        m.captures = [{ row := piece.position.row + dir.rowDelta,
                        col := piece.position.col + dir.colDelta }] ∧
        m.isPromotion = shouldPromote piece m.toPos ∧
        isValidPosition { row := piece.position.row + dir.rowDelta,
                          col := piece.position.col + dir.colDelta } = true ∧
        isValidPosition m.toPos = true ∧
        (∃ jp, getPieceAt board { row := piece.position.row + dir.rowDelta,
                                  col := piece.position.col + dir.colDelta } = some jp ∧
          jp.player = getOpponent piece.player) ∧
        getPieceAt board m.toPos = none := by
  unfold getSingleCaptures at h
  cases hactual : getPieceAt board piece.position with
  | none =>
    rw [hactual] at h
    simp at h
  | some actual =>
    rw [hactual] at h
    dsimp only at h
    by_cases hp : actual.player ≠ piece.player
    · rw [if_pos hp] at h
      simp at h
    · rw [if_neg hp] at h
      push_neg at hp
      rw [List.mem_filterMap] at h
      obtain ⟨dir, hdir, hf⟩ := h
      refine ⟨dir, hdir, actual, rfl, hp, ?_⟩
      split at hf
      next hvalid =>
        cases hjp : getPieceAt board { row := piece.position.row + dir.rowDelta,
                                       col := piece.position.col + dir.colDelta } with
        | none =>
          rw [hjp] at hf
          exact Option.noConfusion hf
        | some jumpedPiece =>
          rw [hjp] at hf
          dsimp only at hf
          split at hf
          next hcond =>
            have hm := Option.some.inj hf
            subst hm
            exact ⟨rfl, rfl, rfl, rfl, hvalid.1, hvalid.2,
              ⟨jumpedPiece, rfl, hcond.1⟩, hcond.2⟩
          next => exact Option.noConfusion hf
      next => exact Option.noConfusion hf

theorem jump_count_lt (board : Board) (piece : Piece) (capture : Move)
    (hc : capture ∈ getSingleCaptures board piece) :
    countTotal (removePieceAt (movePiece (cloneBoard board) piece.position capture.toPos).1
        (capture.captures.headD { row := 0, col := 0 })).1 < countTotal board := by
  obtain ⟨dir, hdir, actual, hactual, hap, hfrom, hto, hcaps, hprom, hvj, hvl,
    ⟨jp, hjp, hjpp⟩, hland⟩ := mem_getSingleCaptures hc
  rw [cloneBoard_eq, hcaps]
  have hd := dir_delta dir (mem_getValidDirections piece dir hdir)
  have hhead : ([{ row := piece.position.row + dir.rowDelta,
                   col := piece.position.col + dir.colDelta }] : List Pos).headD
      { row := 0, col := 0 } =
      { row := piece.position.row + dir.rowDelta,
        col := piece.position.col + dir.colDelta } := rfl
  rw [hhead]
  have hne1 : ({ row := piece.position.row + dir.rowDelta,
                 col := piece.position.col + dir.colDelta } : Pos) ≠ piece.position := by
    intro h
    have hr := congrArg Pos.row h
    simp only at hr
    rcases hd.1 with h1 | h1 <;> omega
  have hne2 : ({ row := piece.position.row + dir.rowDelta,
                 col := piece.position.col + dir.colDelta } : Pos) ≠ capture.toPos := by
    rw [hto]
    intro h
    have hr := congrArg Pos.row h
    simp only at hr
    rcases hd.1 with h1 | h1 <;> omega
  have hafter : getPieceAt (movePiece board piece.position capture.toPos).1
      { row := piece.position.row + dir.rowDelta,
        col := piece.position.col + dir.colDelta } = some jp := by
    rw [getPieceAt_movePiece_ne _ _ _ _ hne1 hne2]
    exact hjp
  calc countTotal (removePieceAt (movePiece board piece.position capture.toPos).1
          { row := piece.position.row + dir.rowDelta,
            col := piece.position.col + dir.colDelta }).1
      < countTotal (movePiece board piece.position capture.toPos).1 :=
        countTotal_removePieceAt_lt _ _ jp hafter
    _ ≤ countTotal board := countTotal_movePiece_le _ _ _

/-- `findMultiJumps` from rules.js: recursively extends capture chains.
The loop over `singleCaptures` is rendered as `flatMap` (pushes in source
order); `capture.captures[0]` is rendered `headD` (every single capture
has exactly one entry).  The recursion is bounded by an explicit `fuel`
argument so that the definition is structurally recursive (and therefore
computes inside the kernel); every recursive call is on a board with one
more opposing piece removed, so the `countTotal board + 1` fuel supplied
by the `findMultiJumps` wrapper below is never exhausted
(`jump_count_lt`), and with that fuel the function satisfies exactly the
source's recursion. -/
def findMultiJumpsAux : Nat → Board → Piece → List Pos → Pos → List Move
  | 0, _, _, _, _ => []
  | fuel + 1, board, piece, currentCaptures, startPosition =>
    let singleCaptures := getSingleCaptures board piece
    if singleCaptures.length = 0 then
      if currentCaptures.length > 0 then
        [{ fromPos := startPosition, toPos := piece.position,
           captures := currentCaptures,
           isPromotion := shouldPromote piece piece.position }]
      else []
    else
      singleCaptures.flatMap fun capture =>
        if currentCaptures.any fun pos =>
            positionsEqual pos (capture.captures.headD { row := 0, col := 0 }) then []
        else
          let newBoard := cloneBoard board
          let moved := movePiece newBoard piece.position capture.toPos
          let after := removePieceAt moved.1 (capture.captures.headD { row := 0, col := 0 })
          match moved.2 with
          | none => []
          | some movedPiece =>
            if movedPiece.type == PieceType.king && piece.type == PieceType.man then
              [{ fromPos := startPosition, toPos := capture.toPos,
                 captures := currentCaptures ++ [capture.captures.headD { row := 0, col := 0 }],
                 isPromotion := true }]
            else
              let continuations := findMultiJumpsAux fuel after.1 movedPiece
                (currentCaptures ++ [capture.captures.headD { row := 0, col := 0 }])
                startPosition
              if continuations.length > 0 then continuations
              else
                [{ fromPos := startPosition, toPos := capture.toPos,
                   captures := currentCaptures ++
                     [capture.captures.headD { row := 0, col := 0 }],
                   isPromotion := capture.isPromotion }]

/-- `findMultiJumps` from rules.js: the fuel-supplying wrapper (see
`findMultiJumpsAux`). -/
def findMultiJumps (board : Board) (piece : Piece) (currentCaptures : List Pos)
    (startPosition : Pos) : List Move :=
  findMultiJumpsAux (countTotal board + 1) board piece currentCaptures startPosition

/-- `getCapturesForPiece` from rules.js: tries each single capture, then
extends with multi-jump continuations (push-in-a-loop rendered as
`flatMap`, preserving order). -/
def getCapturesForPiece (board : Board) (piece : Piece) : List Move :=
  let singleCaptures := getSingleCaptures board piece
  if singleCaptures.length = 0 then []
  else
    singleCaptures.flatMap fun capture =>
      let newBoard := cloneBoard board
      let moved := movePiece newBoard piece.position capture.toPos
      let after := removePieceAt moved.1 (capture.captures.headD { row := 0, col := 0 })
      match moved.2 with
      | none => []
      | some movedPiece =>
        if movedPiece.type == PieceType.king && piece.type == PieceType.man then
          [{ fromPos := piece.position, toPos := capture.toPos,
             captures := [capture.captures.headD { row := 0, col := 0 }],
             isPromotion := true }]
        else
          let continuations := findMultiJumps after.1 movedPiece
            [capture.captures.headD { row := 0, col := 0 }] piece.position
          if continuations.length > 0 then continuations else [capture]

/-- `getAllCapturesForPlayer` from rules.js: the double row/col loop
pushing each piece's captures is the row-major `getPlayerPieces`
enumeration. -/
def getAllCapturesForPlayer (board : Board) (player : Player) : List Move :=
  (getPlayerPieces board player).flatMap fun piece => getCapturesForPiece board piece

/-- `getValidMovesForPiece` from rules.js: mandatory capture. -/
def getValidMovesForPiece (board : Board) (piece : Piece) : List Move :=
  if (getAllCapturesForPlayer board piece.player).length > 0 then
    getCapturesForPiece board piece
  else getSimpleMoves board piece

/-- `getAllValidMoves` from rules.js: all captures if any exist, otherwise
all simple moves (double loop rendered as row-major `flatMap`). -/
def getAllValidMoves (board : Board) (player : Player) : List Move :=
  let captures := getAllCapturesForPlayer board player
  if captures.length > 0 then captures
  else (getPlayerPieces board player).flatMap fun piece => getSimpleMoves board piece

/-- `isGeometricallyValid` from rules.js; `Math.abs` on the integral
coordinate differences is `|·|` on `Int`, and `%` is JavaScript remainder
(`Int.tmod`). -/
def isGeometricallyValid (move : Move) : Bool :=
  let rowDiff := |move.toPos.row - move.fromPos.row|
  let colDiff := |move.toPos.col - move.fromPos.col|
  if move.captures.length = 0 then
    rowDiff == 1 && colDiff == 1
  else
    let maxDist : Int := 2 * move.captures.length
    decide (rowDiff ≤ maxDist) && decide (colDiff ≤ maxDist) &&
      rowDiff.tmod 2 == 0 && colDiff.tmod 2 == 0

/-- `executeMove` from rules.js; the boolean result is paired with the
updated board (the source mutates in place; the `console.error` on an
invalid move is ignored). -/
def executeMove (board : Board) (move : Move) : Bool × Board :=
  match getPieceAt board move.fromPos with
  | none => (false, board)
  | some _ =>
    if isGeometricallyValid move = false then (false, board)
    else
      let b1 := move.captures.foldl (fun b pos => (removePieceAt b pos).1) board
      let b2 := (movePiece b1 move.fromPos move.toPos).1
      (true, b2)

/-- `simulateMove` from rules.js. -/
def simulateMove (board : Board) (move : Move) : Board :=
  (executeMove (cloneBoard board) move).2

/-- `EvaluationWeights` from types.ts. -/
structure EvaluationWeights where
  pieceValue : Int
  kingValue : Int
  centerControl : Int
  advancement : Int
  backRowDefense : Int
  mobilityBonus : Int
deriving DecidableEq, Repr

/-- `DEFAULT_WEIGHTS` from types.ts. -/
def DEFAULT_WEIGHTS : EvaluationWeights :=
  { pieceValue := 100, kingValue := 150, centerControl := 10,
    advancement := 5, backRowDefense := 3, mobilityBonus := 2 }

/-- `isPieceProtected` from evaluation.ts. -/
def isPieceProtected (piece : Piece) (allPieces : List Piece) : Bool :=
  let backRow := if piece.player == Player.agatha then piece.position.row - 1
                 else piece.position.row + 1
  ([{ row := backRow, col := piece.position.col - 1 },
    { row := backRow, col := piece.position.col + 1 }] : List Pos).any fun pos =>
    decide (0 ≤ pos.row) && decide (pos.row < BOARD_SIZE) &&
    decide (0 ≤ pos.col) && decide (pos.col < BOARD_SIZE) &&
    allPieces.any fun p => p.position.row == pos.row && p.position.col == pos.col

/-- `evaluatePiecePosition` from evaluation.ts.  The running `bonus`
accumulator is rendered as the sum of the individual contributions, in
source order.  `weights.centerControl / 2` is JavaScript number division;
with the even default weight the integer division used here is exact. -/
def evaluatePiecePosition (piece : Piece) (player : Player)
    (weights : EvaluationWeights) (allPieces : List Piece) : Int :=
  let row := piece.position.row
  let col := piece.position.col
  let centerBonus : Int :=
    if 2 ≤ col ∧ col ≤ 5 then
      weights.centerControl + (if 3 ≤ col ∧ col ≤ 4 then weights.centerControl / 2 else 0)
    else 0
  let advanceBonus : Int :=
    if piece.type == PieceType.man then
      (if player == Player.agatha then row * weights.advancement
       else (BOARD_SIZE - 1 - row) * weights.advancement)
    else 0
  let backRowBonus : Int :=
    if piece.type == PieceType.man then
      (if player == Player.agatha ∧ row = 0 then weights.backRowDefense
       else if player == Player.human ∧ row = BOARD_SIZE - 1 then weights.backRowDefense
       else 0)
    else 0
  let edgePenalty : Int :=
    if piece.type == PieceType.king then
      (if col = 0 ∨ col = BOARD_SIZE - 1 then -(weights.centerControl / 2) else 0) +
      (if row = 0 ∨ row = BOARD_SIZE - 1 then -(weights.centerControl / 2) else 0)
    else 0
  let protectedBonus : Int :=
    if isPieceProtected piece allPieces then weights.backRowDefense else 0
  centerBonus + advanceBonus + backRowBonus + edgePenalty + protectedBonus

/-- `evaluatePlayerPosition` from evaluation.ts. -/
def evaluatePlayerPosition (board : Board) (player : Player)
    (weights : EvaluationWeights) : Int :=
  let pieces := getPlayerPieces board player
  let base := pieces.foldl (fun s p =>
    s + (if p.type == PieceType.king then weights.kingValue else weights.pieceValue) +
      evaluatePiecePosition p player weights pieces) 0
  base + (getAllValidMoves board player).length * weights.mobilityBonus

/-- `evaluateBoard` from evaluation.ts: Agatha's aggregate minus the
human's. -/
def evaluateBoard (board : Board)
    (weights : EvaluationWeights := DEFAULT_WEIGHTS) : Int :=
  evaluatePlayerPosition board Player.agatha weights -
    evaluatePlayerPosition board Player.human weights

/-- `evaluateEndGame` from evaluation.ts: ±100000 when a player has no
pieces or no legal moves (checked in source order), `none` otherwise. -/
def evaluateEndGame (board : Board) (player : Player) : Option Int :=
  let humanPieces := countPieces board Player.human
  let agathaPieces := countPieces board Player.agatha
  if humanPieces = 0 then
    some (if player == Player.agatha then 100000 else -100000)
  else if agathaPieces = 0 then
    some (if player == Player.human then 100000 else -100000)
  else
    let humanMoves := getAllValidMoves board Player.human
    let agathaMoves := getAllValidMoves board Player.agatha
    if humanMoves.length = 0 then
      some (if player == Player.agatha then 100000 else -100000)
    else if agathaMoves.length = 0 then
      some (if player == Player.human then 100000 else -100000)
    else none

/-- `AI_SEARCH_DEPTH` from types.ts. -/
def AI_SEARCH_DEPTH : Nat := 8

/-- Search scores: JavaScript numbers including the `Infinity` and
`-Infinity` sentinels used by alpha-beta, ordered as in the source. -/
abbrev Score := WithBot (WithTop Int)

/-- Embeds a finite (integer) score. -/
def sc (z : Int) : Score := ((z : WithTop Int) : Score)

/-- The `orderMoves` comparator from minimax.js as an integer whose sign
matches the source's `number` result: capture count descending, then
promotions first, then distance of the destination column from the board
centre (the source compares `|3.5 - col|`; both sides are doubled here to
stay integral, preserving the sign of the difference). -/
def moveCompare (a b : Move) : Int :=
  let captureScore : Int := (b.captures.length : Int) * 100 - (a.captures.length : Int) * 100
  if captureScore ≠ 0 then captureScore
  else if b.isPromotion && !a.isPromotion then 1
  else if a.isPromotion && !b.isPromotion then -1
  else |7 - 2 * a.toPos.col| - |7 - 2 * b.toPos.col|

/-- `orderMoves` from minimax.js: `[...moves].sort(cmp)`.  The engine's
sort is stable and `moveCompare` is a consistent comparator (a total
preorder), under which every stable sort computes the same ordering; the
structurally recursive stable `insertionSort` is used so that concrete
instances reduce inside the kernel. -/
def orderMoves (moves : List Move) : List Move :=
  moves.insertionSort fun a b => moveCompare a b ≤ 0

/-- The maximizing loop of `minimax` from minimax.js, parameterized by
the one-level-deeper search `child` (applied to the child board, the
current `alpha` and the fixed `beta`): fail-soft running maximum, alpha
update, and the `beta <= alpha` cutoff.  The source's `cloneBoard` +
`executeMove` on each child is `simulateMove`. -/
def abMaxGo (child : Board → Score → Score → Score) (board : Board) (beta : Score) :
    List Move → Score → Score → Score
  | [], _, maxScore => maxScore
  | mv :: rest, alpha, maxScore =>
    let score := child (simulateMove board mv) alpha beta
    let maxScore' := max maxScore score
    let alpha' := max alpha score
    if beta ≤ alpha' then maxScore'
    else abMaxGo child board beta rest alpha' maxScore'

/-- The minimizing loop of `minimax` from minimax.js. -/
def abMinGo (child : Board → Score → Score → Score) (board : Board) (alpha : Score) :
    List Move → Score → Score → Score
  | [], _, minScore => minScore
  | mv :: rest, beta, minScore =>
    let score := child (simulateMove board mv) alpha beta
    let minScore' := min minScore score
    let beta' := min beta score
    if beta' ≤ alpha then minScore'
    else abMinGo child board alpha rest beta' minScore'

/-- `minimax` from minimax.js (score only; the module-level node counter
is modelled separately by `minimaxC`): terminal check first, then depth
exhaustion, then the no-moves loss, then the alpha-beta loop over the
ordered moves. -/
def minimax : Board → Nat → Score → Score → Bool → Score
  | board, depth, alpha, beta, isMax =>
    match evaluateEndGame board (if isMax then Player.agatha else Player.human) with
    | some e => if isMax then sc (e + (depth : Int)) else sc (-e - (depth : Int))
    | none =>
      match depth with
      | 0 => sc (evaluateBoard board)
      | d + 1 =>
        let moves := getAllValidMoves board (if isMax then Player.agatha else Player.human)
        if moves.length = 0 then
          if isMax then sc (-100000 + ((d : Int) + 1)) else sc (100000 - ((d : Int) + 1))
        else
          let orderedMoves := orderMoves moves
          if isMax then
            abMaxGo (fun b a bt => minimax b d a bt false) board beta orderedMoves alpha ⊥
          else
            abMinGo (fun b a bt => minimax b d a bt true) board alpha orderedMoves beta ⊤

/-- The root loop shared by `getBestMove` and `getBestMoveWithDepth` in
minimax.js (their loop bodies are textually identical): strict improvement
updates the best move, alpha is raised by every score, beta stays
`Infinity`, and there is no cutoff at the root. -/
def rootLoop (board : Board) (d : Nat) (moves : List Move) (best : Option Move)
    (bestScore alpha : Score) : Option Move :=
  match moves with
  | [] => best
  | mv :: rest =>
    let score := minimax (simulateMove board mv) d alpha ⊤ false
    if bestScore < score then
      rootLoop board d rest (some mv) score (max alpha score)
    else rootLoop board d rest best bestScore (max alpha score)

/-- `getBestMove` from minimax.js (score-relevant behaviour; the node
counter reset is modelled by `getBestMoveC`): no legal move gives `null`,
a single legal move is returned without searching, otherwise the
alpha-beta root loop runs over the ordered moves at `depth - 1`. -/
def getBestMove (board : Board) (depth : Nat := AI_SEARCH_DEPTH) : Option Move :=
  match getAllValidMoves board Player.agatha with
  | [] => none
  | [mv] => some mv
  | mv1 :: mv2 :: rest =>
    rootLoop board (depth - 1) (orderMoves (mv1 :: mv2 :: rest)) none ⊥ ⊥

/-- `getBestMoveWithDepth` from minimax.js: same selection as
`getBestMove` (the source duplicates the loop without resetting the node
counter or logging). -/
def getBestMoveWithDepth (board : Board) (depth : Nat) : Option Move :=
  match getAllValidMoves board Player.agatha with
  | [] => none
  | [mv] => some mv
  | mv1 :: mv2 :: rest =>
    rootLoop board (depth - 1) (orderMoves (mv1 :: mv2 :: rest)) none ⊥ ⊥

/-- Reference function, from the specification's words: full minimax with
no pruning and no move ordering, otherwise identical to `minimax`
(terminal handling, depth exhaustion, no-moves loss, depth-adjusted
terminal scores).  Used to state that pruning never changes the chosen
move's true score. -/
def fullMinimax (board : Board) (depth : Nat) (isMax : Bool) : Score :=
  match evaluateEndGame board (if isMax then Player.agatha else Player.human) with
  | some e => if isMax then sc (e + (depth : Int)) else sc (-e - (depth : Int))
  | none =>
    match depth with
    | 0 => sc (evaluateBoard board)
    | d + 1 =>
      let moves := getAllValidMoves board (if isMax then Player.agatha else Player.human)
      if moves.length = 0 then
        if isMax then sc (-100000 + ((d : Int) + 1)) else sc (100000 - ((d : Int) + 1))
      else
        if isMax then
          moves.foldl (fun acc mv => max acc (fullMinimax (simulateMove board mv) d false)) ⊥
        else
          moves.foldl (fun acc mv => min acc (fullMinimax (simulateMove board mv) d true)) ⊤

/-- Counter-threading maximizing loop (see `minimaxC`). -/
def abMaxGoC (child : Board → Score → Score → Nat → Score × Nat) (board : Board)
    (beta : Score) : List Move → Score → Score → Nat → Score × Nat
  | [], _, maxScore, nodes => (maxScore, nodes)
  | mv :: rest, alpha, maxScore, nodes =>
    let r := child (simulateMove board mv) alpha beta nodes
    let maxScore' := max maxScore r.1
    let alpha' := max alpha r.1
    if beta ≤ alpha' then (maxScore', r.2)
    else abMaxGoC child board beta rest alpha' maxScore' r.2

/-- Counter-threading minimizing loop (see `minimaxC`). -/
def abMinGoC (child : Board → Score → Score → Nat → Score × Nat) (board : Board)
    (alpha : Score) : List Move → Score → Score → Nat → Score × Nat
  | [], _, minScore, nodes => (minScore, nodes)
  | mv :: rest, beta, minScore, nodes =>
    let r := child (simulateMove board mv) alpha beta nodes
    let minScore' := min minScore r.1
    let beta' := min beta r.1
    if beta' ≤ alpha then (minScore', r.2)
    else abMinGoC child board alpha rest beta' minScore' r.2

/-- `minimax` from minimax.js with the module-level `nodesEvaluated`
counter modelled by explicit state passing: the counter is incremented
once on entry (`nodesEvaluated++`) and threaded through the loops. -/
def minimaxC : Board → Nat → Score → Score → Bool → Nat → Score × Nat
  | board, depth, alpha, beta, isMax, nodes =>
    let nodes1 := nodes + 1
    match evaluateEndGame board (if isMax then Player.agatha else Player.human) with
    | some e => (if isMax then sc (e + (depth : Int)) else sc (-e - (depth : Int)), nodes1)
    | none =>
      match depth with
      | 0 => (sc (evaluateBoard board), nodes1)
      | d + 1 =>
        let moves := getAllValidMoves board (if isMax then Player.agatha else Player.human)
        if moves.length = 0 then
          (if isMax then sc (-100000 + ((d : Int) + 1)) else sc (100000 - ((d : Int) + 1)),
            nodes1)
        else
          let orderedMoves := orderMoves moves
          if isMax then
            abMaxGoC (fun b a bt n => minimaxC b d a bt false n) board beta orderedMoves
              alpha ⊥ nodes1
          else
            abMinGoC (fun b a bt n => minimaxC b d a bt true n) board alpha orderedMoves
              beta ⊤ nodes1

/-- Counter-threading version of the root loop. -/
def rootLoopC (board : Board) (d : Nat) (moves : List Move) (best : Option Move)
    (bestScore alpha : Score) (nodes : Nat) : Option Move × Nat :=
  match moves with
  | [] => (best, nodes)
  | mv :: rest =>
    let r := minimaxC (simulateMove board mv) d alpha ⊤ false nodes
    if bestScore < r.1 then
      rootLoopC board d rest (some mv) r.1 (max alpha r.1) r.2
    else rootLoopC board d rest best bestScore (max alpha r.1) r.2

/-- `getBestMove` from minimax.js with the `nodesEvaluated` counter made
explicit: `nodes` is the counter value on entry, the second component the
value after the call (`getNodesEvaluated`).  The source sets
`nodesEvaluated = 0` first, so the result never depends on `nodes`. -/
def getBestMoveC (board : Board) (depth : Nat) (nodes : Nat) : Option Move × Nat :=
  let nodes0 := 0
  match getAllValidMoves board Player.agatha with
  | [] => (none, nodes0)
  | [mv] => (some mv, nodes0)
  | mv1 :: mv2 :: rest =>
    rootLoopC board (depth - 1) (orderMoves (mv1 :: mv2 :: rest)) none ⊥ ⊥ nodes0

/-- `getBestMoveWithDepth` from minimax.js with the counter made
explicit; unlike `getBestMove` the source performs no reset here. -/
def getBestMoveWithDepthC (board : Board) (depth : Nat) (nodes : Nat) : Option Move × Nat :=
  match getAllValidMoves board Player.agatha with
  | [] => (none, nodes)
  | [mv] => (some mv, nodes)
  | mv1 :: mv2 :: rest =>
    rootLoopC board (depth - 1) (orderMoves (mv1 :: mv2 :: rest)) none ⊥ ⊥ nodes

/-- The loop of `iterativeDeepeningSearch` from minimax.js.  Wall-clock
readings (`Date.now()`) are modelled by the oracle `clock`, sampled once
per iteration at increasing ticks; `startTime` is `clock` at tick 0. -/
def idsLoop (clock : Nat → Int) (board : Board) (maxDepth : Nat) (maxTimeMs startTime : Int)
    (depth : Nat) (tick : Nat) (best : Option Move) (nodes : Nat) : Option Move × Nat :=
  if h : depth ≤ maxDepth then
    if clock tick - startTime ≥ maxTimeMs then (best, nodes)
    else
      let r := getBestMoveWithDepthC board depth nodes
      let best' := match r.1 with
        | some mv => some mv
        | none => best
      idsLoop clock board maxDepth maxTimeMs startTime (depth + 2) (tick + 1) best' r.2
  else (best, nodes)
termination_by maxDepth + 1 - depth
decreasing_by omega

/-- `iterativeDeepeningSearch` from minimax.js with the counter and the
clock made explicit: searches depths 2, 4, … up to `maxDepth` while the
elapsed time stays below the budget, keeping the last completed depth's
move.  No counter reset is performed. -/
def iterativeDeepeningSearchC (clock : Nat → Int) (board : Board) (maxDepth : Nat)
    (maxTimeMs : Int) (nodes : Nat) : Option Move × Nat :=
  idsLoop clock board maxDepth maxTimeMs (clock 0) 2 1 none nodes

/-- An empty 8×8 board (test fixture for concrete witnesses). -/
def emptyBoard : Board := List.replicate 8 (List.replicate 8 none)

/-- Builds a board holding exactly the given pieces (witness fixture). -/
def boardWith (ps : List Piece) : Board :=
  ps.foldl (fun b p => setCellAt b p.position (some p)) emptyBoard

/-- An Agatha man at (r, c) (witness fixture). -/
def aman (r c : Int) : Piece :=
  { player := Player.agatha, type := PieceType.man, position := { row := r, col := c } }

/-- A human man at (r, c) (witness fixture). -/
def hman (r c : Int) : Piece :=
  { player := Player.human, type := PieceType.man, position := { row := r, col := c } }

/-- C6: a geometrically inconsistent move (diagonal displacement not
matching the capture count, as checked by `isGeometricallyValid`) is
rejected by `executeMove` with a `false` result and an unchanged board;
and whenever `executeMove` reports `false`, the board is unchanged. -/
theorem executeMove_rejects_without_mutation (board : Board) (move : Move) :
    (isGeometricallyValid move = false → executeMove board move = (false, board)) ∧
    ((executeMove board move).1 = false → (executeMove board move).2 = board) := by
  unfold executeMove
  cases hp : getPieceAt board move.fromPos with
  | none => exact ⟨fun _ => rfl, fun _ => rfl⟩
  | some piece =>
    cases hg : isGeometricallyValid move with
    | false =>
      constructor
      · intro
        rw [if_pos rfl]
      · intro
        rw [if_pos rfl]
    | true =>
      constructor
      · intro h
        exact absurd h (by simp)
      · intro h
        rw [if_neg (by simp)] at h
        exact absurd h (by simp)

/-- A concrete non-diagonal move request (two columns, zero rows, no
captures); C6 witness input. -/
def badMoveDemo : Move :=
  { fromPos := { row := 2, col := 1 }, toPos := { row := 2, col := 3 },
    captures := [], isPromotion := false }

/-- C6 witness: the concrete malformed move is rejected and the board is
returned unchanged. -/
theorem executeMove_rejects_without_mutation_witness :
    executeMove (boardWith [aman 2 1]) badMoveDemo = (false, boardWith [aman 2 1]) :=
  (executeMove_rejects_without_mutation (boardWith [aman 2 1]) badMoveDemo).1 (by decide)

/-- C7 counterexample: on the empty board the human's opponent (Agatha)
has zero pieces, yet `evaluateEndGame emptyBoard human` is not the win
magnitude `100000` (the human's own zero-pieces condition is checked
first and yields `-100000`), refuting the claimed exact
characterisation. -/
theorem evaluateEndGame_claim_counterexample :
    ¬ (evaluateEndGame emptyBoard Player.human = some 100000 ↔
       (countPieces emptyBoard Player.agatha = 0 ∨
        getAllValidMoves emptyBoard Player.agatha = [])) := by
  decide

/-- The branch structure of `evaluateEndGame`, written out as nested
conditionals. -/
theorem evaluateEndGame_eq (board : Board) (player : Player) :
    evaluateEndGame board player =
      if countPieces board Player.human = 0 then
        some (if player == Player.agatha then (100000 : Int) else -100000)
      else if countPieces board Player.agatha = 0 then
        some (if player == Player.human then 100000 else -100000)
      else if (getAllValidMoves board Player.human).length = 0 then
        some (if player == Player.agatha then 100000 else -100000)
      else if (getAllValidMoves board Player.agatha).length = 0 then
        some (if player == Player.human then 100000 else -100000)
      else none := rfl

/-- C7 (amended): `evaluateEndGame board P` resolves the four loss
conditions in source order — human has no pieces, Agatha has no pieces,
human has no legal moves, Agatha has no legal moves — returning the win
magnitude for the other side (sign-adjusted to the queried player `P`),
and returns `none` exactly when both players still have a piece and a
legal move; in particular it is `none` on the initial board. -/
theorem evaluateEndGame_spec (board : Board) (player : Player) :
    (evaluateEndGame board player = none ↔
      (countPieces board Player.human ≠ 0 ∧ countPieces board Player.agatha ≠ 0 ∧
       (getAllValidMoves board Player.human).length ≠ 0 ∧
       (getAllValidMoves board Player.agatha).length ≠ 0)) ∧
    (evaluateEndGame board player =
        some (if player = Player.agatha then 100000 else -100000) ↔
      (countPieces board Player.human = 0 ∨
        (countPieces board Player.human ≠ 0 ∧ countPieces board Player.agatha ≠ 0 ∧
         (getAllValidMoves board Player.human).length = 0))) ∧
    (evaluateEndGame board player =
        some (if player = Player.agatha then (-100000 : Int) else 100000) ↔
      ((countPieces board Player.human ≠ 0 ∧ countPieces board Player.agatha = 0) ∨
        (countPieces board Player.human ≠ 0 ∧ countPieces board Player.agatha ≠ 0 ∧
         (getAllValidMoves board Player.human).length ≠ 0 ∧
         (getAllValidMoves board Player.agatha).length = 0))) ∧
    evaluateEndGame createInitialBoard player = none := by
  have hne : (100000 : Int) ≠ -100000 := by decide
  refine ⟨?_, ?_, ?_, ?_⟩
  · by_cases h1 : countPieces board Player.human = 0 <;>
      by_cases h2 : countPieces board Player.agatha = 0 <;>
        by_cases h3 : (getAllValidMoves board Player.human).length = 0 <;>
          by_cases h4 : (getAllValidMoves board Player.agatha).length = 0 <;>
            simp [evaluateEndGame_eq, h1, h2, h3, h4]
  · by_cases h1 : countPieces board Player.human = 0 <;>
      by_cases h2 : countPieces board Player.agatha = 0 <;>
        by_cases h3 : (getAllValidMoves board Player.human).length = 0 <;>
          by_cases h4 : (getAllValidMoves board Player.agatha).length = 0 <;>
            cases player <;>
              simp [evaluateEndGame_eq, h1, h2, h3, h4, hne, hne.symm]
  · by_cases h1 : countPieces board Player.human = 0 <;>
      by_cases h2 : countPieces board Player.agatha = 0 <;>
        by_cases h3 : (getAllValidMoves board Player.human).length = 0 <;>
          by_cases h4 : (getAllValidMoves board Player.agatha).length = 0 <;>
            cases player <;>
              simp [evaluateEndGame_eq, h1, h2, h3, h4, hne, hne.symm]
  · cases player <;> decide

/-- C10: when Agatha has exactly one legal move, both `getBestMove` and
`getBestMoveWithDepth` return it immediately for every requested depth
(zero included) without entering the minimax recursion: after
`getBestMove` the node counter reads 0, and `getBestMoveWithDepth` leaves
the incoming counter untouched. -/
theorem single_move_shortcut (board : Board) (mv : Move) (depth nodes : Nat)
    (h : getAllValidMoves board Player.agatha = [mv]) :
    getBestMoveC board depth nodes = (some mv, 0) ∧
    getBestMoveWithDepthC board depth nodes = (some mv, nodes) ∧
    getBestMove board depth = some mv ∧
    getBestMoveWithDepth board depth = some mv := by
  unfold getBestMoveC getBestMoveWithDepthC getBestMove getBestMoveWithDepth
  rw [h]
  exact ⟨rfl, rfl, rfl, rfl⟩

/-- The unique legal move of the C10 witness board (a lone Agatha man at
(6,7), whose only move is the promoting step to (7,6)). -/
def onlyMoveDemo : Move :=
  { fromPos := { row := 6, col := 7 }, toPos := { row := 7, col := 6 },
    captures := [], isPromotion := true }

/-- C10 witness: on the concrete one-move board, at depth 0 and with a
stale counter value 5, both entry points return the unique move and the
counter behaves as claimed for `getBestMove`. -/
theorem single_move_shortcut_witness :
    getBestMoveC (boardWith [aman 6 7]) 0 5 = (some onlyMoveDemo, 0) ∧
    getBestMoveWithDepthC (boardWith [aman 6 7]) 0 5 = (some onlyMoveDemo, 5) ∧
    getBestMove (boardWith [aman 6 7]) 0 = some onlyMoveDemo ∧
    getBestMoveWithDepth (boardWith [aman 6 7]) 0 = some onlyMoveDemo :=
  single_move_shortcut (boardWith [aman 6 7]) onlyMoveDemo 0 5 (by decide)

theorem findMultiJumpsAux_captures_pos (fuel : Nat) :
    ∀ (board : Board) (piece : Piece) (cs : List Pos) (start : Pos) (mv : Move),
      mv ∈ findMultiJumpsAux fuel board piece cs start → 0 < mv.captures.length := by
  induction fuel with
  | zero =>
    intro board piece cs start mv h
    simp [findMultiJumpsAux] at h
  | succ fuel ih =>
    intro board piece cs start mv h
    unfold findMultiJumpsAux at h
    by_cases hs : (getSingleCaptures board piece).length = 0
    · rw [if_pos hs] at h
      by_cases hc : cs.length > 0
      · rw [if_pos hc] at h
        rw [List.mem_singleton] at h
        subst h
        exact hc
      · rw [if_neg hc] at h
        simp at h
    · rw [if_neg hs] at h
      rw [List.mem_flatMap] at h
      obtain ⟨capture, hcap, hmem⟩ := h
      by_cases hdup : cs.any fun pos =>
          positionsEqual pos (capture.captures.headD { row := 0, col := 0 })
      · rw [if_pos hdup] at hmem
        simp at hmem
      · rw [if_neg hdup] at hmem
        simp only at hmem
        cases hmv : (movePiece (cloneBoard board) piece.position capture.toPos).2 with
        | none =>
          rw [hmv] at hmem
          simp at hmem
        | some movedPiece =>
          rw [hmv] at hmem
          dsimp only at hmem
          by_cases hk : (movedPiece.type == PieceType.king && piece.type == PieceType.man) = true
          · rw [if_pos hk] at hmem
            rw [List.mem_singleton] at hmem
            subst hmem
            simp
          · rw [if_neg hk] at hmem
            by_cases hcont : (findMultiJumpsAux fuel
                (removePieceAt (movePiece (cloneBoard board) piece.position capture.toPos).1
                  (capture.captures.headD { row := 0, col := 0 })).1 movedPiece
                (cs ++ [capture.captures.headD { row := 0, col := 0 }]) start).length > 0
            · rw [if_pos hcont] at hmem
              exact ih _ _ _ _ _ hmem
            · rw [if_neg hcont] at hmem
              rw [List.mem_singleton] at hmem
              subst hmem
              simp

theorem getCapturesForPiece_captures_pos (board : Board) (piece : Piece) (mv : Move)
    (h : mv ∈ getCapturesForPiece board piece) : 0 < mv.captures.length := by
  unfold getCapturesForPiece at h
  by_cases hs : (getSingleCaptures board piece).length = 0
  · rw [if_pos hs] at h
    simp at h
  · rw [if_neg hs] at h
    rw [List.mem_flatMap] at h
    obtain ⟨capture, hcap, hmem⟩ := h
    simp only at hmem
    cases hmv : (movePiece (cloneBoard board) piece.position capture.toPos).2 with
    | none =>
      rw [hmv] at hmem
      simp at hmem
    | some movedPiece =>
      rw [hmv] at hmem
      dsimp only at hmem
      by_cases hk : (movedPiece.type == PieceType.king && piece.type == PieceType.man) = true
      · rw [if_pos hk] at hmem
        rw [List.mem_singleton] at hmem
        subst hmem
        simp
      · rw [if_neg hk] at hmem
        by_cases hcont : (findMultiJumps
            (removePieceAt (movePiece (cloneBoard board) piece.position capture.toPos).1
              (capture.captures.headD { row := 0, col := 0 })).1 movedPiece
            [capture.captures.headD { row := 0, col := 0 }] piece.position).length > 0
        · rw [if_pos hcont] at hmem
          exact findMultiJumpsAux_captures_pos _ _ _ _ _ _ hmem
        · rw [if_neg hcont] at hmem
          rw [List.mem_singleton] at hmem
          subst hmem
          obtain ⟨dir, hdir, actual, hact, hap, hfrom, hto, hcaps, hrest⟩ :=
            mem_getSingleCaptures hcap
          rw [hcaps]
          simp

theorem getAllCapturesForPlayer_captures_pos (board : Board) (player : Player) (mv : Move)
    (h : mv ∈ getAllCapturesForPlayer board player) : 0 < mv.captures.length := by
  unfold getAllCapturesForPlayer at h
  rw [List.mem_flatMap] at h
  obtain ⟨piece, hp, hmem⟩ := h
  exact getCapturesForPiece_captures_pos board piece mv hmem

/-- C2: mandatory capture.  If some piece of player `P` on the board has
a capture, then every move `getAllValidMoves` returns for `P` is a
capture, and `getValidMovesForPiece` returns the empty list for any piece
of `P` without a capture of its own; if no piece of `P` has a capture,
`getAllValidMoves` returns exactly the simple moves of all of `P`'s
pieces (in board scan order). -/
theorem mandatory_capture (board : Board) (P : Player) :
    ((∃ pc ∈ getPlayerPieces board P, getCapturesForPiece board pc ≠ []) →
      (∀ mv ∈ getAllValidMoves board P, mv.captures ≠ []) ∧
      (∀ pc : Piece, pc.player = P → getCapturesForPiece board pc = [] →
        getValidMovesForPiece board pc = [])) ∧
    ((∀ pc ∈ getPlayerPieces board P, getCapturesForPiece board pc = []) →
      getAllValidMoves board P =
        (getPlayerPieces board P).flatMap fun pc => getSimpleMoves board pc) := by
  constructor
  · intro hex
    obtain ⟨pc, hpc, hne⟩ := hex
    have hcap : 0 < (getAllCapturesForPlayer board P).length := by
      obtain ⟨mv, hmv⟩ := List.exists_mem_of_ne_nil _ hne
      have : mv ∈ getAllCapturesForPlayer board P := by
        unfold getAllCapturesForPlayer
        rw [List.mem_flatMap]
        exact ⟨pc, hpc, hmv⟩
      exact List.length_pos_of_mem this
    constructor
    · intro mv hmv
      unfold getAllValidMoves at hmv
      rw [if_pos hcap] at hmv
      have := getAllCapturesForPlayer_captures_pos board P mv hmv
      intro hnil
      rw [hnil] at this
      simp at this
    · intro pc' hpl hnone
      unfold getValidMovesForPiece
      rw [hpl, if_pos hcap]
      exact hnone
  · intro hall
    have hnil : getAllCapturesForPlayer board P = [] := by
      unfold getAllCapturesForPlayer
      rw [List.flatMap_eq_nil_iff]
      exact hall
    unfold getAllValidMoves
    rw [hnil]
    simp

/-- C2 witness: on a concrete board where Agatha's man at (2,1) can jump
the human man at (3,2), every legal Agatha move is a capture and
capture-less pieces are immovable. -/
theorem mandatory_capture_witness :
    (∀ mv ∈ getAllValidMoves (boardWith [aman 2 1, hman 3 2]) Player.agatha,
      mv.captures ≠ []) ∧
    (∀ pc : Piece, pc.player = Player.agatha →
      getCapturesForPiece (boardWith [aman 2 1, hman 3 2]) pc = [] →
      getValidMovesForPiece (boardWith [aman 2 1, hman 3 2]) pc = []) :=
  (mandatory_capture (boardWith [aman 2 1, hman 3 2]) Player.agatha).1 (by decide)

theorem sc_lt_sc_iff (a b : Int) : sc a < sc b ↔ a < b := by
  simp [sc]

theorem sc_le_sc_iff (a b : Int) : sc a ≤ sc b ↔ a ≤ b := by
  simp [sc]

theorem sc_lt_top (a : Int) : sc a < ⊤ := by
  simp only [sc]
  exact lt_of_lt_of_le (WithBot.coe_lt_coe.mpr (WithTop.coe_lt_top a)) le_top

theorem bot_lt_sc (a : Int) : ⊥ < sc a := by
  simp only [sc]
  exact WithBot.bot_lt_coe _

/-- The defining equation of `minimax`, available at every depth (the
automatic equation lemmas split on the `depth` constructor). -/
theorem minimax_eq (board : Board) (depth : Nat) (alpha beta : Score) (isMax : Bool) :
    minimax board depth alpha beta isMax =
      match evaluateEndGame board (if isMax then Player.agatha else Player.human) with
      | some e => if isMax then sc (e + (depth : Int)) else sc (-e - (depth : Int))
      | none =>
        match depth with
        | 0 => sc (evaluateBoard board)
        | d + 1 =>
          let moves := getAllValidMoves board (if isMax then Player.agatha else Player.human)
          if moves.length = 0 then
            if isMax then sc (-100000 + ((d : Int) + 1)) else sc (100000 - ((d : Int) + 1))
          else
            let orderedMoves := orderMoves moves
            if isMax then
              abMaxGo (fun b a bt => minimax b d a bt false) board beta orderedMoves alpha ⊥
            else
              abMinGo (fun b a bt => minimax b d a bt true) board alpha orderedMoves beta ⊤ := by
  cases depth with
  | zero =>
    rw [minimax.eq_1]
  | succ d =>
    rw [minimax.eq_2]

/-- C4 (amended): the terminal check precedes the depth check — a
terminal position returns the depth-adjusted terminal score at every
depth, including 0 — and the adjustment always favours larger remaining
depth from the point of view of the side to move: at a maximizing
(Agatha) node the returned score is `evaluateEndGame + depth` and is
strictly increasing in the remaining depth both for wins and for losses,
and at a minimizing (human) node it is `-evaluateEndGame - depth` and
strictly decreasing in the remaining depth both for wins and for losses.
Hence the winner strictly prefers quicker wins, but the loser's score is
also strictly better for quicker losses, not for delayed ones. -/
theorem minimax_terminal_spec (board : Board) (depth d' : Nat) (alpha beta : Score)
    (e : Int) :
    (evaluateEndGame board Player.agatha = some e →
      minimax board depth alpha beta true = sc (e + depth)) ∧
    (evaluateEndGame board Player.human = some e →
      minimax board depth alpha beta false = sc (-e - depth)) ∧
    (d' < depth → evaluateEndGame board Player.agatha = some e →
      minimax board d' alpha beta true < minimax board depth alpha beta true) ∧
    (d' < depth → evaluateEndGame board Player.human = some e →
      minimax board depth alpha beta false < minimax board d' alpha beta false) := by
  have hmax : ∀ n : Nat, evaluateEndGame board Player.agatha = some e →
      minimax board n alpha beta true = sc (e + n) := by
    intro n h
    rw [minimax_eq]
    simp [h]
  have hmin : ∀ n : Nat, evaluateEndGame board Player.human = some e →
      minimax board n alpha beta false = sc (-e - n) := by
    intro n h
    rw [minimax_eq]
    simp [h]
  refine ⟨hmax depth, hmin depth, ?_, ?_⟩
  · intro hlt h
    rw [hmax depth h, hmax d' h, sc_lt_sc_iff]
    omega
  · intro hlt h
    rw [hmin depth h, hmin d' h, sc_lt_sc_iff]
    omega

/-- C4 counterexample: on a concrete board where Agatha has already lost
(no pieces), the claim's "a loss delayed longer scores strictly better
for the loser" fails — the maximizing terminal score at remaining depth 1
(the later loss) is strictly below the one at remaining depth 3. -/
theorem minimax_terminal_claim_counterexample :
    ¬ (minimax (boardWith [hman 5 0]) 1 ⊥ ⊤ true >
       minimax (boardWith [hman 5 0]) 3 ⊥ ⊤ true) := by
  decide

/-- C4 witness: concrete terminal boards — with Agatha victorious
(`boardWith [aman 2 1]`, human has no pieces) the terminal score at depth
2 is `100002` even though the depth budget is not exhausted, and with
Agatha lost the depth-0 node still returns the terminal score rather than
the static evaluation. -/
theorem minimax_terminal_spec_witness :
    minimax (boardWith [aman 2 1]) 2 ⊥ ⊤ true = sc (100000 + 2) ∧
    minimax (boardWith [hman 5 0]) 0 ⊥ ⊤ true = sc (-100000 + 0) ∧
    minimax (boardWith [hman 5 0]) 1 ⊥ ⊤ true < minimax (boardWith [hman 5 0]) 3 ⊥ ⊤ true := by
  refine ⟨?_, ?_, ?_⟩
  · exact (minimax_terminal_spec (boardWith [aman 2 1]) 2 0 ⊥ ⊤ 100000).1 (by decide)
  · have := (minimax_terminal_spec (boardWith [hman 5 0]) 0 0 ⊥ ⊤ (-100000)).1 (by decide)
    simpa using this
  · exact (minimax_terminal_spec (boardWith [hman 5 0]) 3 1 ⊥ ⊤ (-100000)).2.2.1
      (by omega) (by decide)

theorem abMaxGoC_counter (child : Board → Score → Score → Nat → Score × Nat)
    (hchild : ∀ b a bt n, (child b a bt n).1 = (child b a bt 0).1 ∧
      (child b a bt n).2 = n + (child b a bt 0).2)
    (board : Board) (beta : Score) :
    ∀ (L : List Move) (alpha maxScore : Score) (n : Nat),
      (abMaxGoC child board beta L alpha maxScore n).1 =
        (abMaxGoC child board beta L alpha maxScore 0).1 ∧
      (abMaxGoC child board beta L alpha maxScore n).2 =
        n + (abMaxGoC child board beta L alpha maxScore 0).2 := by
  intro L
  induction L with
  | nil => intro alpha maxScore n; exact ⟨rfl, rfl⟩
  | cons mv rest ih =>
    intro alpha maxScore n
    have h1 := hchild (simulateMove board mv) alpha beta n
    unfold abMaxGoC
    dsimp only
    rw [h1.1, h1.2]
    by_cases hb : beta ≤ max alpha (child (simulateMove board mv) alpha beta 0).1
    · rw [if_pos hb, if_pos hb]
      exact ⟨rfl, rfl⟩
    · rw [if_neg hb, if_neg hb]
      have h2 := ih (max alpha (child (simulateMove board mv) alpha beta 0).1)
        (max maxScore (child (simulateMove board mv) alpha beta 0).1)
      constructor
      · rw [(h2 _).1, (h2 ((child (simulateMove board mv) alpha beta 0).2)).1]
      · rw [(h2 _).2, (h2 ((child (simulateMove board mv) alpha beta 0).2)).2]
        omega

theorem abMinGoC_counter (child : Board → Score → Score → Nat → Score × Nat)
    (hchild : ∀ b a bt n, (child b a bt n).1 = (child b a bt 0).1 ∧
      (child b a bt n).2 = n + (child b a bt 0).2)
    (board : Board) (alpha : Score) :
    ∀ (L : List Move) (beta minScore : Score) (n : Nat),
      (abMinGoC child board alpha L beta minScore n).1 =
        (abMinGoC child board alpha L beta minScore 0).1 ∧
      (abMinGoC child board alpha L beta minScore n).2 =
        n + (abMinGoC child board alpha L beta minScore 0).2 := by
  intro L
  induction L with
  | nil => intro beta minScore n; exact ⟨rfl, rfl⟩
  | cons mv rest ih =>
    intro beta minScore n
    have h1 := hchild (simulateMove board mv) alpha beta n
    unfold abMinGoC
    dsimp only
    rw [h1.1, h1.2]
    by_cases hb : min beta (child (simulateMove board mv) alpha beta 0).1 ≤ alpha
    · rw [if_pos hb, if_pos hb]
      exact ⟨rfl, rfl⟩
    · rw [if_neg hb, if_neg hb]
      have h2 := ih (min beta (child (simulateMove board mv) alpha beta 0).1)
        (min minScore (child (simulateMove board mv) alpha beta 0).1)
      constructor
      · rw [(h2 _).1, (h2 ((child (simulateMove board mv) alpha beta 0).2)).1]
      · rw [(h2 _).2, (h2 ((child (simulateMove board mv) alpha beta 0).2)).2]
        omega

/-- The defining equation of `minimaxC` at every depth. -/
theorem minimaxC_eq (board : Board) (depth : Nat) (alpha beta : Score) (isMax : Bool)
    (nodes : Nat) :
    minimaxC board depth alpha beta isMax nodes =
      match evaluateEndGame board (if isMax then Player.agatha else Player.human) with
      | some e => (if isMax then sc (e + (depth : Int)) else sc (-e - (depth : Int)), nodes + 1)
      | none =>
        match depth with
        | 0 => (sc (evaluateBoard board), nodes + 1)
        | d + 1 =>
          let moves := getAllValidMoves board (if isMax then Player.agatha else Player.human)
          if moves.length = 0 then
            (if isMax then sc (-100000 + ((d : Int) + 1)) else sc (100000 - ((d : Int) + 1)),
              nodes + 1)
          else
            let orderedMoves := orderMoves moves
            if isMax then
              abMaxGoC (fun b a bt n => minimaxC b d a bt false n) board beta orderedMoves
                alpha ⊥ (nodes + 1)
            else
              abMinGoC (fun b a bt n => minimaxC b d a bt true n) board alpha orderedMoves
                beta ⊤ (nodes + 1) := by
  cases depth with
  | zero => rw [minimaxC.eq_1]
  | succ d => rw [minimaxC.eq_2]

theorem minimaxC_counter :
    ∀ (depth : Nat) (board : Board) (alpha beta : Score) (isMax : Bool) (n : Nat),
      (minimaxC board depth alpha beta isMax n).1 =
        (minimaxC board depth alpha beta isMax 0).1 ∧
      (minimaxC board depth alpha beta isMax n).2 =
        n + (minimaxC board depth alpha beta isMax 0).2 := by
  intro depth
  induction depth with
  | zero =>
    intro board alpha beta isMax n
    rw [minimaxC_eq, minimaxC_eq]
    cases hEG : evaluateEndGame board (if isMax then Player.agatha else Player.human) with
    | some e => exact ⟨rfl, rfl⟩
    | none => exact ⟨rfl, rfl⟩
  | succ d ih =>
    intro board alpha beta isMax n
    rw [minimaxC_eq, minimaxC_eq]
    cases hEG : evaluateEndGame board (if isMax then Player.agatha else Player.human) with
    | some e => exact ⟨rfl, rfl⟩
    | none =>
      dsimp only
      by_cases hm : (getAllValidMoves board
          (if isMax then Player.agatha else Player.human)).length = 0
      · rw [if_pos hm, if_pos hm]
        exact ⟨rfl, rfl⟩
      · rw [if_neg hm, if_neg hm]
        cases isMax with
        | true =>
          simp only [reduceIte]
          have hmax := abMaxGoC_counter (fun b a bt m => minimaxC b d a bt false m)
            (fun b a bt m => ih b a bt false m) board beta
            (orderMoves (getAllValidMoves board Player.agatha)) alpha ⊥
          constructor
          · rw [(hmax (n + 1)).1, (hmax (0 + 1)).1]
          · rw [(hmax (n + 1)).2, (hmax (0 + 1)).2]
            omega
        | false =>
          simp only [Bool.false_eq_true, reduceIte]
          have hmin := abMinGoC_counter (fun b a bt m => minimaxC b d a bt true m)
            (fun b a bt m => ih b a bt true m) board alpha
            (orderMoves (getAllValidMoves board Player.human)) beta ⊤
          constructor
          · rw [(hmin (n + 1)).1, (hmin (0 + 1)).1]
          · rw [(hmin (n + 1)).2, (hmin (0 + 1)).2]
            omega

theorem rootLoopC_counter (board : Board) (d : Nat) :
    ∀ (L : List Move) (best : Option Move) (bestScore alpha : Score) (n : Nat),
      (rootLoopC board d L best bestScore alpha n).1 =
        (rootLoopC board d L best bestScore alpha 0).1 ∧
      (rootLoopC board d L best bestScore alpha n).2 =
        n + (rootLoopC board d L best bestScore alpha 0).2 := by
  intro L
  induction L with
  | nil => intro best bestScore alpha n; exact ⟨rfl, rfl⟩
  | cons mv rest ih =>
    intro best bestScore alpha n
    have h1 := minimaxC_counter d (simulateMove board mv) alpha ⊤ false
    unfold rootLoopC
    dsimp only
    rw [(h1 n).1, (h1 n).2]
    by_cases hb : bestScore < (minimaxC (simulateMove board mv) d alpha ⊤ false 0).1
    · rw [if_pos hb, if_pos hb]
      have h2 := ih (some mv) (minimaxC (simulateMove board mv) d alpha ⊤ false 0).1
        (max alpha (minimaxC (simulateMove board mv) d alpha ⊤ false 0).1)
      constructor
      · rw [(h2 _).1, (h2 ((minimaxC (simulateMove board mv) d alpha ⊤ false 0).2)).1]
      · rw [(h2 _).2, (h2 ((minimaxC (simulateMove board mv) d alpha ⊤ false 0).2)).2]
        omega
    · rw [if_neg hb, if_neg hb]
      have h2 := ih best bestScore
        (max alpha (minimaxC (simulateMove board mv) d alpha ⊤ false 0).1)
      constructor
      · rw [(h2 _).1, (h2 ((minimaxC (simulateMove board mv) d alpha ⊤ false 0).2)).1]
      · rw [(h2 _).2, (h2 ((minimaxC (simulateMove board mv) d alpha ⊤ false 0).2)).2]
        omega

theorem getBestMoveC_eq (board : Board) (depth : Nat) (n : Nat) :
    getBestMoveC board depth n = getBestMoveWithDepthC board depth 0 := by
  unfold getBestMoveC getBestMoveWithDepthC
  rfl

theorem getBestMoveWithDepthC_counter (board : Board) (depth : Nat) (n : Nat) :
    (getBestMoveWithDepthC board depth n).1 = (getBestMoveWithDepthC board depth 0).1 ∧
    (getBestMoveWithDepthC board depth n).2 =
      n + (getBestMoveWithDepthC board depth 0).2 := by
  unfold getBestMoveWithDepthC
  cases hm : getAllValidMoves board Player.agatha with
  | nil => exact ⟨rfl, rfl⟩
  | cons mv1 ms =>
    cases ms with
    | nil => exact ⟨rfl, rfl⟩
    | cons mv2 rest =>
      dsimp only
      have h := rootLoopC_counter board (depth - 1) (orderMoves (mv1 :: mv2 :: rest)) none ⊥ ⊥
      exact ⟨(h n).1, (h n).2⟩

theorem idsLoop_counter (clock : Nat → Int) (board : Board) (maxDepth : Nat)
    (maxTimeMs startTime : Int) :
    ∀ (fuel depth tick : Nat) (best : Option Move) (n : Nat),
      maxDepth + 1 - depth ≤ fuel →
      (idsLoop clock board maxDepth maxTimeMs startTime depth tick best n).1 =
        (idsLoop clock board maxDepth maxTimeMs startTime depth tick best 0).1 ∧
      (idsLoop clock board maxDepth maxTimeMs startTime depth tick best n).2 =
        n + (idsLoop clock board maxDepth maxTimeMs startTime depth tick best 0).2 := by
  intro fuel
  induction fuel with
  | zero =>
    intro depth tick best n hf
    have hd : ¬ depth ≤ maxDepth := by omega
    unfold idsLoop
    rw [dif_neg hd, dif_neg hd]
    exact ⟨rfl, rfl⟩
  | succ fuel ih =>
    intro depth tick best n hf
    by_cases hd : depth ≤ maxDepth
    · unfold idsLoop
      rw [dif_pos hd, dif_pos hd]
      by_cases ht : clock tick - startTime ≥ maxTimeMs
      · rw [if_pos ht, if_pos ht]
        exact ⟨rfl, rfl⟩
      · rw [if_neg ht, if_neg ht]
        dsimp only
        have hg := getBestMoveWithDepthC_counter board depth n
        rw [hg.1, hg.2]
        have h2 := ih (depth + 2) (tick + 1)
          (match (getBestMoveWithDepthC board depth 0).1 with
            | some mv => some mv
            | none => best) ((getBestMoveWithDepthC board depth 0).2 : Nat)
        have h3 := ih (depth + 2) (tick + 1)
          (match (getBestMoveWithDepthC board depth 0).1 with
            | some mv => some mv
            | none => best) (n + (getBestMoveWithDepthC board depth 0).2)
        constructor
        · rw [(h3 (by omega)).1, (h2 (by omega)).1]
        · rw [(h3 (by omega)).2, (h2 (by omega)).2]
          omega
    · unfold idsLoop
      rw [dif_neg hd, dif_neg hd]
      exact ⟨rfl, rfl⟩

theorem minimaxC_pos (board : Board) (depth : Nat) (alpha beta : Score) (isMax : Bool) :
    0 < (minimaxC board depth alpha beta isMax 0).2 := by
  rw [minimaxC_eq]
  cases hEG : evaluateEndGame board (if isMax then Player.agatha else Player.human) with
  | some e => simp
  | none =>
    cases depth with
    | zero => simp
    | succ d =>
      dsimp only
      by_cases hm : (getAllValidMoves board
          (if isMax then Player.agatha else Player.human)).length = 0
      · rw [if_pos hm]
        simp
      · rw [if_neg hm]
        cases isMax with
        | true =>
          simp only [reduceIte]
          have h := (abMaxGoC_counter (fun b a bt m => minimaxC b d a bt false m)
            (fun b a bt m => minimaxC_counter d b a bt false m) board beta
            (orderMoves (getAllValidMoves board Player.agatha)) alpha ⊥ (0 + 1)).2
          omega
        | false =>
          simp only [Bool.false_eq_true, reduceIte]
          have h := (abMinGoC_counter (fun b a bt m => minimaxC b d a bt true m)
            (fun b a bt m => minimaxC_counter d b a bt true m) board alpha
            (orderMoves (getAllValidMoves board Player.human)) beta ⊤ (0 + 1)).2
          omega

/-- C8 counterexample: on a concrete two-move board, running
`getBestMoveWithDepth` with a stale counter value 7 reports a node count
different from the count of the same search started at 0, so the counter
is not reset at the start of this top-level entry point and the reported
value is not the number of minimax calls of that search alone. -/
theorem nodes_reset_claim_counterexample :
    (getBestMoveWithDepthC (boardWith [aman 2 1, hman 5 2]) 2 7).2 ≠
      (getBestMoveWithDepthC (boardWith [aman 2 1, hman 5 2]) 2 0).2 := by
  decide

/-- C8 (amended): the node counter is incremented exactly once per
`minimax` entry (counter threading is additive in the incoming value),
but only `getBestMove` resets it: after `getBestMove` the counter equals
the number of minimax calls of that search alone (its result is the
counter-0 run of `getBestMoveWithDepth`, whatever the stale value was),
while `getBestMoveWithDepth` and `iterativeDeepeningSearch` add their own
call count on top of the incoming counter value without resetting. -/
theorem nodes_counter_spec (board : Board) (depth : Nat) (alpha beta : Score)
    (isMax : Bool) (clock : Nat → Int) (maxDepth : Nat) (maxTimeMs : Int) (n : Nat) :
    (minimaxC board depth alpha beta isMax n).2 =
      n + (minimaxC board depth alpha beta isMax 0).2 ∧
    0 < (minimaxC board depth alpha beta isMax 0).2 ∧
    getBestMoveC board depth n = getBestMoveWithDepthC board depth 0 ∧
    (getBestMoveWithDepthC board depth n).1 = (getBestMoveWithDepthC board depth 0).1 ∧
    (getBestMoveWithDepthC board depth n).2 =
      n + (getBestMoveWithDepthC board depth 0).2 ∧
    (iterativeDeepeningSearchC clock board maxDepth maxTimeMs n).1 =
      (iterativeDeepeningSearchC clock board maxDepth maxTimeMs 0).1 ∧
    (iterativeDeepeningSearchC clock board maxDepth maxTimeMs n).2 =
      n + (iterativeDeepeningSearchC clock board maxDepth maxTimeMs 0).2 := by
  refine ⟨(minimaxC_counter depth board alpha beta isMax n).2, ?_, getBestMoveC_eq board depth n,
    (getBestMoveWithDepthC_counter board depth n).1,
    (getBestMoveWithDepthC_counter board depth n).2, ?_, ?_⟩
  · exact minimaxC_pos board depth alpha beta isMax
  · exact (idsLoop_counter clock board maxDepth maxTimeMs (clock 0)
      (maxDepth + 1) 2 1 none n (by omega)).1
  · exact (idsLoop_counter clock board maxDepth maxTimeMs (clock 0)
      (maxDepth + 1) 2 1 none n (by omega)).2

theorem mem_getSimpleMoves {board : Board} {piece : Piece} {m : Move}
    (h : m ∈ getSimpleMoves board piece) :
    ∃ dir ∈ getValidDirections piece,
      m.fromPos = piece.position ∧
      m.toPos = { row := piece.position.row + dir.rowDelta,
                  col := piece.position.col + dir.colDelta } ∧
      m.captures = [] ∧
      m.isPromotion = shouldPromote piece m.toPos ∧
      isValidPosition m.toPos = true ∧
      getPieceAt board m.toPos = none := by
  unfold getSimpleMoves at h
  rw [List.mem_filterMap] at h
  obtain ⟨dir, hdir, hf⟩ := h
  refine ⟨dir, hdir, ?_⟩
  dsimp only at hf
  split at hf
  next hcond =>
    have hm := Option.some.inj hf
    subst hm
    exact ⟨rfl, rfl, rfl, rfl, hcond.1, hcond.2⟩
  next => exact Option.noConfusion hf

theorem movePiece_snd {board : Board} {fromP toP : Pos} {p' : Piece}
    (h : (movePiece board fromP toP).2 = some p') :
    ∃ q, getPieceAt board fromP = some q ∧
      p'.player = q.player ∧ p'.position = toP ∧
      p'.type = (if shouldPromote q toP then PieceType.king else q.type) := by
  unfold movePiece at h
  cases hq : getPieceAt board fromP with
  | none =>
    rw [hq] at h
    exact Option.noConfusion h
  | some q =>
    rw [hq] at h
    dsimp only at h
    have := Option.some.inj h
    subst this
    exact ⟨q, rfl, rfl, rfl, rfl⟩

theorem findMultiJumpsAux_geometry (fuel : Nat) :
    ∀ (board : Board) (piece : Piece) (cs : List Pos) (start : Pos) (mv : Move),
      isValidPosition piece.position = true →
      (piece.position.row + piece.position.col) % 2 = (start.row + start.col) % 2 →
      mv ∈ findMultiJumpsAux fuel board piece cs start →
      mv.fromPos = start ∧ isValidPosition mv.toPos = true ∧
      (mv.toPos.row + mv.toPos.col) % 2 = (start.row + start.col) % 2 := by
  induction fuel with
  | zero =>
    intro board piece cs start mv _ _ h
    simp [findMultiJumpsAux] at h
  | succ fuel ih =>
    intro board piece cs start mv hvalid hpar h
    unfold findMultiJumpsAux at h
    by_cases hs : (getSingleCaptures board piece).length = 0
    · rw [if_pos hs] at h
      by_cases hc : cs.length > 0
      · rw [if_pos hc, List.mem_singleton] at h
        subst h
        exact ⟨rfl, hvalid, hpar⟩
      · rw [if_neg hc] at h
        simp at h
    · rw [if_neg hs] at h
      rw [List.mem_flatMap] at h
      obtain ⟨capture, hcap, hmem⟩ := h
      obtain ⟨dir, hdir, actual, hact, hap, hfrom, hto, hcaps, hprom, hvj, hvl,
        ⟨jp, hjp, hjpp⟩, hland⟩ := mem_getSingleCaptures hcap
      have hd := dir_delta dir (mem_getValidDirections piece dir hdir)
      have hparto : (capture.toPos.row + capture.toPos.col) % 2 =
          (start.row + start.col) % 2 := by
        rw [hto]
        simp only
        omega
      by_cases hdup : cs.any fun pos =>
          positionsEqual pos (capture.captures.headD { row := 0, col := 0 })
      · rw [if_pos hdup] at hmem
        simp at hmem
      · rw [if_neg hdup] at hmem
        simp only at hmem
        cases hmv : (movePiece (cloneBoard board) piece.position capture.toPos).2 with
        | none =>
          rw [hmv] at hmem
          simp at hmem
        | some movedPiece =>
          rw [hmv] at hmem
          dsimp only at hmem
          obtain ⟨q, hq, hqplayer, hqpos, hqtype⟩ := movePiece_snd hmv
          have hvto : isValidPosition capture.toPos = true := hvl
          by_cases hk : (movedPiece.type == PieceType.king && piece.type == PieceType.man) = true
          · rw [if_pos hk, List.mem_singleton] at hmem
            subst hmem
            exact ⟨rfl, hvto, hparto⟩
          · rw [if_neg hk] at hmem
            by_cases hcont : (findMultiJumpsAux fuel
                (removePieceAt (movePiece (cloneBoard board) piece.position capture.toPos).1
                  (capture.captures.headD { row := 0, col := 0 })).1 movedPiece
                (cs ++ [capture.captures.headD { row := 0, col := 0 }]) start).length > 0
            · rw [if_pos hcont] at hmem
              refine ih _ movedPiece _ start mv ?_ ?_ hmem
              · rw [hqpos]
                exact hvto
              · rw [hqpos]
                exact hparto
            · rw [if_neg hcont, List.mem_singleton] at hmem
              subst hmem
              exact ⟨rfl, hvto, hparto⟩

theorem getCapturesForPiece_geometry (board : Board) (piece : Piece) (mv : Move)
    (h : mv ∈ getCapturesForPiece board piece) :
    mv.fromPos = piece.position ∧ isValidPosition mv.toPos = true ∧
    (mv.toPos.row + mv.toPos.col) % 2 =
      (piece.position.row + piece.position.col) % 2 := by
  unfold getCapturesForPiece at h
  by_cases hs : (getSingleCaptures board piece).length = 0
  · rw [if_pos hs] at h
    simp at h
  · rw [if_neg hs] at h
    rw [List.mem_flatMap] at h
    obtain ⟨capture, hcap, hmem⟩ := h
    obtain ⟨dir, hdir, actual, hact, hap, hfrom, hto, hcaps, hprom, hvj, hvl,
      ⟨jp, hjp, hjpp⟩, hland⟩ := mem_getSingleCaptures hcap
    have hparto : (capture.toPos.row + capture.toPos.col) % 2 =
        (piece.position.row + piece.position.col) % 2 := by
      rw [hto]
      dsimp only
      omega
    simp only at hmem
    cases hmv : (movePiece (cloneBoard board) piece.position capture.toPos).2 with
    | none =>
      rw [hmv] at hmem
      simp at hmem
    | some movedPiece =>
      rw [hmv] at hmem
      dsimp only at hmem
      obtain ⟨q, hq, hqplayer, hqpos, hqtype⟩ := movePiece_snd hmv
      by_cases hk : (movedPiece.type == PieceType.king && piece.type == PieceType.man) = true
      · rw [if_pos hk, List.mem_singleton] at hmem
        subst hmem
        exact ⟨rfl, hvl, hparto⟩
      · rw [if_neg hk] at hmem
        by_cases hcont : (findMultiJumps
            (removePieceAt (movePiece (cloneBoard board) piece.position capture.toPos).1
              (capture.captures.headD { row := 0, col := 0 })).1 movedPiece
            [capture.captures.headD { row := 0, col := 0 }] piece.position).length > 0
        · rw [if_pos hcont] at hmem
          have := findMultiJumpsAux_geometry _ _ movedPiece _ piece.position mv
            (by rw [hqpos]; exact hvl) (by rw [hqpos]; exact hparto) hmem
          exact this
        · rw [if_neg hcont, List.mem_singleton] at hmem
          subst hmem
          exact ⟨hfrom, hvl, hparto⟩

theorem getAllValidMoves_geometry (board : Board) (player : Player) (mv : Move)
    (h : mv ∈ getAllValidMoves board player) :
    isValidPosition mv.toPos = true ∧
    (mv.toPos.row + mv.toPos.col) % 2 = (mv.fromPos.row + mv.fromPos.col) % 2 := by
  unfold getAllValidMoves at h
  by_cases hc : 0 < (getAllCapturesForPlayer board player).length
  · rw [if_pos hc] at h
    unfold getAllCapturesForPlayer at h
    rw [List.mem_flatMap] at h
    obtain ⟨piece, hp, hmem⟩ := h
    obtain ⟨hfrom, hvalid, hpar⟩ := getCapturesForPiece_geometry board piece mv hmem
    rw [hfrom]
    exact ⟨hvalid, hpar⟩
  · rw [if_neg hc] at h
    rw [List.mem_flatMap] at h
    obtain ⟨piece, hp, hmem⟩ := h
    obtain ⟨dir, hdir, hfrom, hto, hcaps, hprom, hvalid, hland⟩ := mem_getSimpleMoves hmem
    have hd := dir_delta dir (mem_getValidDirections piece dir hdir)
    refine ⟨hvalid, ?_⟩
    rw [hfrom, hto]
    dsimp only
    rcases hd.1 with h1 | h1 <;> rcases hd.2 with h2 | h2 <;> omega

theorem positionsEqual_iff (a b : Pos) : positionsEqual a b = true ↔ a = b := by
  unfold positionsEqual
  rw [Bool.and_eq_true, beq_iff_eq, beq_iff_eq]
  constructor
  · rintro ⟨h1, h2⟩
    cases a
    cases b
    simp_all
  · rintro rfl
    exact ⟨rfl, rfl⟩

theorem validateBoard_iff (b : Board) :
    validateBoard b = true ↔
      (b.length = 8 ∧
       ∀ r, r < 8 → ((b.getD r []).length = 8 ∧
         ∀ c, c < 8 → ∀ p, getCell b r c = some p →
           isPlayableSquare r c = true ∧
           p.position = { row := (r : Int), col := (c : Int) })) := by
  unfold validateBoard
  rw [Bool.and_eq_true, List.all_eq_true]
  simp only [List.mem_range, Bool.and_eq_true, List.all_eq_true, beq_iff_eq]
  constructor
  · rintro ⟨h1, h2⟩
    refine ⟨h1, ?_⟩
    intro r hr
    obtain ⟨hl, hc⟩ := h2 r hr
    refine ⟨hl, ?_⟩
    intro c hcc p hp
    have hm := hc c hcc
    rw [hp, Bool.and_eq_true] at hm
    exact ⟨hm.1, (positionsEqual_iff _ _).mp hm.2⟩
  · rintro ⟨h1, h2⟩
    refine ⟨h1, ?_⟩
    intro r hr
    obtain ⟨hl, hc⟩ := h2 r hr
    refine ⟨hl, ?_⟩
    intro c hcc
    cases hp : getCell b r c with
    | none => rfl
    | some p =>
      rw [Bool.and_eq_true]
      obtain ⟨hpl, hpos⟩ := hc c hcc p hp
      exact ⟨hpl, (positionsEqual_iff _ _).mpr hpos⟩

theorem isPlayableSquare_emod (x y : Int) (hx : 0 ≤ x + y) :
    isPlayableSquare x y = true ↔ (x + y) % 2 = 1 := by
  unfold isPlayableSquare
  rw [Int.tmod_eq_emod hx (by omega), beq_iff_eq]

theorem setCellAt_eq (b : Board) (pos : Pos) (v : Option Piece)
    (h : isValidPosition pos = true) :
    setCellAt b pos v = setCellRaw b pos.row.toNat pos.col.toNat v := by
  unfold setCellAt
  rw [if_pos h]

theorem validate_setCellAt_none (b : Board) (pos : Pos)
    (hv : validateBoard b = true) :
    validateBoard (setCellAt b pos none) = true := by
  by_cases hval : isValidPosition pos = true
  · rw [setCellAt_eq b pos none hval]
    rw [validateBoard_iff] at hv ⊢
    obtain ⟨h1, h2⟩ := hv
    refine ⟨by rw [length_setCellRaw]; exact h1, ?_⟩
    intro r hr
    obtain ⟨hl, hcells⟩ := h2 r hr
    refine ⟨by rw [row_length_setCellRaw]; exact hl, ?_⟩
    intro c hcc p hp
    by_cases heq : pos.row.toNat = r ∧ pos.col.toNat = c
    · exfalso
      obtain ⟨he1, he2⟩ := heq
      subst he1
      subst he2
      have hrow8 : pos.row.toNat < b.length := by
        rw [h1]
        exact hr
      have hcol8 : pos.col.toNat < (b.getD pos.row.toNat []).length := by
        rw [hl]
        exact hcc
      rw [getCell_setCellRaw_self b _ _ none hrow8 hcol8] at hp
      exact Option.noConfusion hp
    · rw [getCell_setCellRaw_ne b _ _ r c none (by tauto)] at hp
      exact hcells c hcc p hp
  · unfold setCellAt
    rw [if_neg hval]
    exact hv

theorem validate_removeFold (b : Board) (hv : validateBoard b = true) :
    ∀ L : List Pos, validateBoard (L.foldl (fun bb pos => (removePieceAt bb pos).1) b) = true := by
  intro L
  induction L generalizing b with
  | nil => exact hv
  | cons pos rest ih =>
    simp only [List.foldl_cons]
    refine ih _ ?_
    unfold removePieceAt
    cases hq : getPieceAt b pos with
    | none => exact hv
    | some q => exact validate_setCellAt_none b pos hv

theorem validate_movePiece (b : Board) (fromP toP : Pos)
    (hv : validateBoard b = true) (hvto : isValidPosition toP = true)
    (hpar : (toP.row + toP.col) % 2 = (fromP.row + fromP.col) % 2) :
    validateBoard (movePiece b fromP toP).1 = true := by
  unfold movePiece
  cases hq : getPieceAt b fromP with
  | none => exact hv
  | some q =>
    dsimp only
    have hvfrom := getPieceAt_some_valid b fromP q hq
    have hbf := valid_bounds fromP hvfrom
    have hbt := valid_bounds toP hvto
    have h1 := validate_setCellAt_none b fromP hv
    rw [setCellAt_eq _ fromP _ hvfrom] at h1
    rw [setCellAt_eq _ fromP _ hvfrom, setCellAt_eq _ toP _ hvto]
    rw [validateBoard_iff] at hv h1 ⊢
    have hplayfrom : isPlayableSquare fromP.row fromP.col = true := by
      have hcell : getCell b fromP.row.toNat fromP.col.toNat = some q := by
        rw [← getPieceAt_eq_getCell b fromP hvfrom]
        exact hq
      have hres := ((hv.2 fromP.row.toNat (by omega)).2 fromP.col.toNat (by omega) q hcell).1
      have hco : ((fromP.row.toNat : Int)) = fromP.row := by omega
      have hco2 : ((fromP.col.toNat : Int)) = fromP.col := by omega
      rw [hco, hco2] at hres
      exact hres
    have hplayto : isPlayableSquare toP.row toP.col = true := by
      rw [isPlayableSquare_emod _ _ (by omega)]
      rw [isPlayableSquare_emod _ _ (by omega)] at hplayfrom
      omega
    refine ⟨?_, ?_⟩
    · rw [length_setCellRaw]
      exact h1.1
    · intro r hr
      refine ⟨by rw [row_length_setCellRaw]; exact (h1.2 r hr).1, ?_⟩
      intro c hcc p hp
      by_cases heq : toP.row.toNat = r ∧ toP.col.toNat = c
      · obtain ⟨he1, he2⟩ := heq
        subst he1
        subst he2
        have hrow8 : toP.row.toNat <
            (setCellRaw b fromP.row.toNat fromP.col.toNat none).length := by
          rw [length_setCellRaw, hv.1]
          omega
        have hcol8 : toP.col.toNat <
            ((setCellRaw b fromP.row.toNat fromP.col.toNat none).getD toP.row.toNat []).length := by
          rw [row_length_setCellRaw, (hv.2 toP.row.toNat (by omega)).1]
          omega
        rw [getCell_setCellRaw_self _ _ _ _ hrow8 hcol8] at hp
        have hpv := Option.some.inj hp
        subst hpv
        have hco : ((toP.row.toNat : Int)) = toP.row := by omega
        have hco2 : ((toP.col.toNat : Int)) = toP.col := by omega
        constructor
        · rw [hco, hco2]
          exact hplayto
        · dsimp only
          rw [hco, hco2]
      · rw [getCell_setCellRaw_ne _ _ _ r c _ (by tauto)] at hp
        exact (h1.2 r hr).2 c hcc p hp

theorem executeMove_preserves_validate (b : Board) (mv : Move)
    (hv : validateBoard b = true) (hvto : isValidPosition mv.toPos = true)
    (hpar : (mv.toPos.row + mv.toPos.col) % 2 = (mv.fromPos.row + mv.fromPos.col) % 2) :
    validateBoard (executeMove b mv).2 = true := by
  unfold executeMove
  cases hq : getPieceAt b mv.fromPos with
  | none => exact hv
  | some q =>
    by_cases hg : isGeometricallyValid mv = false
    · rw [if_pos hg]
      exact hv
    · rw [if_neg hg]
      dsimp only
      exact validate_movePiece _ mv.fromPos mv.toPos
        (validate_removeFold b hv mv.captures) hvto hpar

/-- Boards reachable from the initial board by executing, at every step, a
move drawn from `getAllValidMoves` for some player (covering in
particular the alternating play of an actual game). -/
inductive ReachableBoard : Board → Prop
  | init : ReachableBoard createInitialBoard
  | step (b : Board) (p : Player) (mv : Move) : ReachableBoard b →
      mv ∈ getAllValidMoves b p → ReachableBoard (executeMove b mv).2

/-- C5: every board reachable from `createInitialBoard` by executing
legal moves passes `validateBoard`: it is 8×8, light squares stay empty,
and every occupied cell holds a piece whose stored position equals the
cell's coordinates. -/
theorem reachable_validateBoard (b : Board) (h : ReachableBoard b) :
    validateBoard b = true := by
  induction h with
  | init => decide
  | step b p mv hr hm ih =>
    obtain ⟨hvto, hpar⟩ := getAllValidMoves_geometry b p mv hm
    exact executeMove_preserves_validate b mv ih hvto hpar

/-- Agatha's first generated opening move (witness fixture). -/
def openingMoveDemo : Move :=
  { fromPos := { row := 2, col := 1 }, toPos := { row := 3, col := 0 },
    captures := [], isPromotion := false }

/-- C5 witness: the invariant holds on the initial board and on the
concrete board reached by executing Agatha's opening move. -/
theorem reachable_validateBoard_witness :
    validateBoard createInitialBoard = true ∧
    validateBoard (executeMove createInitialBoard openingMoveDemo).2 = true :=
  ⟨reachable_validateBoard createInitialBoard ReachableBoard.init,
   reachable_validateBoard _ (ReachableBoard.step _ Player.agatha openingMoveDemo
     ReachableBoard.init (by decide))⟩

/-- The promotion (back) rank of a player: row 0 for the human, row 7 for
Agatha (cf. `shouldPromote`). -/
def promotionRow : Player → Int
  | Player.human => 0
  | Player.agatha => 7

/-- The square reached by jumping from `p` over `c`: the mirror square
`2c - p` (cf. `getSingleCaptures`, where the landing is two steps in the
jump direction while the jumped square is one). -/
def jumpLanding (p c : Pos) : Pos :=
  { row := 2 * c.row - p.row, col := 2 * c.col - p.col }

/-- The landing squares of a capture chain, reconstructed from the jumped
squares.  The head of the list is the chain's starting square. -/
def landingsAux (start : Pos) (caps : List Pos) : List Pos :=
  List.scanl jumpLanding start caps

theorem landingsAux_nil (start : Pos) : landingsAux start [] = [start] := rfl

theorem landingsAux_cons (start c : Pos) (l : List Pos) :
    landingsAux start (c :: l) = start :: landingsAux (jumpLanding start c) l := rfl

theorem landingsAux_ne_nil (start : Pos) (caps : List Pos) :
    landingsAux start caps ≠ [] := by
  cases caps <;> simp [landingsAux, List.scanl]

theorem getLast?_cons_of_ne_nil {α : Type} (a : α) (l : List α) (h : l ≠ []) :
    (a :: l).getLast? = l.getLast? := by
  cases l with
  | nil => exact absurd rfl h
  | cons b t => rw [List.getLast?_cons_cons]

theorem shouldPromote_man_iff (piece : Piece) (pos : Pos)
    (h : piece.type = PieceType.man) :
    (shouldPromote piece pos = true ↔ pos.row = promotionRow piece.player) := by
  unfold shouldPromote promotionRow
  cases hp : piece.player <;> simp [h, BOARD_SIZE]

theorem man_dir (piece : Piece) (dir : Direction) (h : piece.type = PieceType.man)
    (hd : dir ∈ getValidDirections piece) :
    dir.rowDelta = getForwardDirection piece.player := by
  unfold getValidDirections at hd
  rw [if_neg (by simp [h])] at hd
  exact beq_iff_eq.mp (List.mem_filter.mp hd).2

theorem getCell_setCellRaw_self_or (board : Board) (r c : Nat) (v : Option Piece) :
    getCell (setCellRaw board r c v) r c = v ∨
    getCell (setCellRaw board r c v) r c = getCell board r c := by
  by_cases hr : r < board.length
  · by_cases hc : c < (board.getD r []).length
    · exact Or.inl (getCell_setCellRaw_self board r c v hr hc)
    · right
      unfold getCell setCellRaw
      have hget : (board.set r ((board.getD r []).set c v)).getD r [] =
          (board.getD r []).set c v := by
        simp only [List.getD_eq_getElem?_getD, List.getElem?_set_self hr, Option.getD_some]
      rw [hget]
      rw [List.getD_eq_getElem?_getD, List.getD_eq_getElem?_getD]
      rw [List.getElem?_set, if_pos rfl]
      simp only [← List.getD_eq_getElem?_getD]
      rw [if_neg hc, List.getD_eq_getElem?_getD, List.getElem?_eq_none (Nat.le_of_not_lt hc)]
  · right
    unfold setCellRaw
    rw [List.set_eq_of_length_le (by omega)]

theorem getPieceAt_setCellAt_self_or (board : Board) (pos : Pos) (v : Option Piece) :
    getPieceAt (setCellAt board pos v) pos = v ∨
    getPieceAt (setCellAt board pos v) pos = getPieceAt board pos := by
  by_cases hv : isValidPosition pos = true
  · rw [setCellAt_eq board pos v hv, getPieceAt_eq_getCell _ _ hv,
      getPieceAt_eq_getCell _ _ hv]
    exact getCell_setCellRaw_self_or board _ _ v
  · right
    unfold setCellAt
    rw [if_neg hv]

theorem getPieceAt_removePieceAt_ne (board : Board) (pos pos' : Pos)
    (h : pos ≠ pos') :
    getPieceAt (removePieceAt board pos).1 pos' = getPieceAt board pos' := by
  unfold removePieceAt
  cases hq : getPieceAt board pos with
  | none => rfl
  | some q =>
    dsimp only
    exact getPieceAt_setCellAt_ne board pos pos' none h

theorem findMultiJumpsAux_promotion (fuel : Nat) :
    ∀ (board : Board) (piece : Piece) (cs : List Pos) (start : Pos) (mv : Move),
      piece.type = PieceType.man →
      piece.position.row ≠ promotionRow piece.player →
      (∀ q, getPieceAt board piece.position = some q → q.player = piece.player →
        q.type = piece.type) →
      mv ∈ findMultiJumpsAux fuel board piece cs start →
      ∃ ds, mv.captures = cs ++ ds ∧ mv.fromPos = start ∧
        (landingsAux piece.position ds).getLast? = some mv.toPos ∧
        (∀ x ∈ (landingsAux piece.position ds).dropLast,
          x.row ≠ promotionRow piece.player) ∧
        (mv.isPromotion = true ↔ mv.toPos.row = promotionRow piece.player) := by
  induction fuel with
  | zero =>
    intro board piece cs start mv _ _ _ h
    simp [findMultiJumpsAux] at h
  | succ fuel ih =>
    intro board piece cs start mv hman hnp hty h
    unfold findMultiJumpsAux at h
    by_cases hs : (getSingleCaptures board piece).length = 0
    · rw [if_pos hs] at h
      by_cases hc : cs.length > 0
      · rw [if_pos hc, List.mem_singleton] at h
        subst h
        refine ⟨[], by simp, rfl, rfl, by rw [landingsAux_nil]; simp, ?_⟩
        show shouldPromote piece piece.position = true ↔
          piece.position.row = promotionRow piece.player
        exact shouldPromote_man_iff piece piece.position hman
      · rw [if_neg hc] at h
        simp at h
    · rw [if_neg hs] at h
      rw [List.mem_flatMap] at h
      obtain ⟨capture, hcap, hmem⟩ := h
      obtain ⟨dir, hdir, actual, hact, hap, hfrom, hto, hcaps, hprom, hvj, hvl,
        ⟨jp, hjp, hjpp⟩, hland⟩ := mem_getSingleCaptures hcap
      have hd := dir_delta dir (mem_getValidDirections piece dir hdir)
      have hc0 : capture.captures.headD { row := 0, col := 0 } =
          { row := piece.position.row + dir.rowDelta,
            col := piece.position.col + dir.colDelta } := by
        rw [hcaps]
        rfl
      have hmirror : jumpLanding piece.position
          (capture.captures.headD { row := 0, col := 0 }) = capture.toPos := by
        rw [hc0, hto]
        unfold jumpLanding
        simp only [Pos.mk.injEq]
        constructor <;> omega
      have hc0ne : capture.captures.headD { row := 0, col := 0 } ≠ capture.toPos := by
        rw [hc0, hto]
        intro hcon
        have hcr := congrArg Pos.row hcon
        simp only at hcr
        rcases hd.1 with h1 | h1 <;> omega
      have hc0nefrom : capture.captures.headD { row := 0, col := 0 } ≠
          piece.position := by
        rw [hc0]
        intro hcon
        have hcr := congrArg Pos.row hcon
        simp only at hcr
        rcases hd.1 with h1 | h1 <;> omega
      by_cases hdup : cs.any fun pos =>
          positionsEqual pos (capture.captures.headD { row := 0, col := 0 })
      · rw [if_pos hdup] at hmem
        simp at hmem
      · rw [if_neg hdup] at hmem
        simp only at hmem
        cases hmv : (movePiece (cloneBoard board) piece.position capture.toPos).2 with
        | none =>
          rw [hmv] at hmem
          simp at hmem
        | some movedPiece =>
          rw [hmv] at hmem
          dsimp only at hmem
          obtain ⟨q, hq, hqplayer, hqpos, hqtype⟩ := movePiece_snd hmv
          rw [cloneBoard_eq] at hq
          rw [hact] at hq
          have hqa : q = actual := (Option.some.inj hq).symm
          subst hqa
          have hacttype : q.type = piece.type := hty q hact hap
          have hmp : movedPiece.player = piece.player := by
            rw [hqplayer, hap]
          by_cases hk : (movedPiece.type == PieceType.king &&
              piece.type == PieceType.man) = true
          · rw [if_pos hk, List.mem_singleton] at hmem
            subst hmem
            have hking : movedPiece.type = PieceType.king := by
              rw [Bool.and_eq_true, beq_iff_eq] at hk
              exact hk.1
            have hpromoted : shouldPromote q capture.toPos = true := by
              by_contra hnot
              rw [hqtype, if_neg (by simpa using hnot), hacttype, hman] at hking
              exact PieceType.noConfusion hking
            have hrow : capture.toPos.row = promotionRow piece.player := by
              have hsp := (shouldPromote_man_iff q capture.toPos
                (by rw [hacttype]; exact hman)).mp hpromoted
              rw [hap] at hsp
              exact hsp
            refine ⟨[capture.captures.headD { row := 0, col := 0 }], rfl, rfl, ?_, ?_, ?_⟩
            · rw [landingsAux_cons, hmirror, landingsAux_nil]
              rw [getLast?_cons_of_ne_nil _ _ (by simp)]
              rfl
            · rw [landingsAux_cons, hmirror, landingsAux_nil]
              rw [List.dropLast_cons_of_ne_nil (by simp), List.dropLast_single]
              intro x hx
              rw [List.mem_singleton] at hx
              subst hx
              exact hnp
            · show true = true ↔ capture.toPos.row = promotionRow piece.player
              rw [hrow]
              exact ⟨fun _ => rfl, fun _ => rfl⟩
          · rw [if_neg hk] at hmem
            have hmovedman : movedPiece.type = PieceType.man := by
              rw [hqtype] at hk ⊢
              rw [hacttype, hman]
              by_cases hsp : shouldPromote q capture.toPos = true
              · exfalso
                rw [if_pos hsp, hman] at hk
                simp at hk
              · rw [if_neg hsp]
            have hnotprom : shouldPromote q capture.toPos = false := by
              by_contra hnot
              rw [hqtype, if_pos (by simpa using hnot)] at hmovedman
              exact PieceType.noConfusion hmovedman
            have hrowne : capture.toPos.row ≠ promotionRow piece.player := by
              intro hrow
              have hsp := (shouldPromote_man_iff q capture.toPos
                (by rw [hacttype]; exact hman)).mpr (by rw [hap]; exact hrow)
              rw [hsp] at hnotprom
              exact Bool.noConfusion hnotprom
            by_cases hcont : (findMultiJumpsAux fuel
                (removePieceAt (movePiece (cloneBoard board) piece.position
                  capture.toPos).1
                  (capture.captures.headD { row := 0, col := 0 })).1 movedPiece
                (cs ++ [capture.captures.headD { row := 0, col := 0 }]) start).length > 0
            · rw [if_pos hcont] at hmem
              have htynext : ∀ q', getPieceAt (removePieceAt
                  (movePiece (cloneBoard board) piece.position capture.toPos).1
                  (capture.captures.headD { row := 0, col := 0 })).1
                    movedPiece.position = some q' →
                  q'.player = movedPiece.player → q'.type = movedPiece.type := by
                intro q' hq' hq'p
                rw [hqpos] at hq'
                rw [getPieceAt_removePieceAt_ne _ _ _ hc0ne] at hq'
                unfold movePiece at hq'
                rw [cloneBoard_eq, hact] at hq'
                dsimp only at hq'
                rcases getPieceAt_setCellAt_self_or
                    (setCellAt board piece.position none) capture.toPos
                    (some { player := q.player,
                            type := if shouldPromote q capture.toPos then
                              PieceType.king else q.type,
                            position := capture.toPos }) with hcase | hcase
                · rw [hcase] at hq'
                  have hqq := Option.some.inj hq'
                  subst hqq
                  rw [← hqtype]
                · rw [hcase] at hq'
                  rw [getPieceAt_setCellAt_ne _ _ _ _ (by
                    rw [hto]
                    intro hcon
                    have hcr := congrArg Pos.row hcon
                    simp only at hcr
                    rcases hd.1 with h1 | h1 <;> omega)] at hq'
                  rw [hland] at hq'
                  exact Option.noConfusion hq'
              obtain ⟨ds', hcaps', hfrom', hlast', hdrop', hiff'⟩ :=
                ih _ movedPiece _ start mv hmovedman
                  (by rw [hqpos, hmp]; exact hrowne) htynext hmem
              refine ⟨capture.captures.headD { row := 0, col := 0 } :: ds', ?_,
                hfrom', ?_, ?_, ?_⟩
              · rw [hcaps']
                simp
              · rw [landingsAux_cons, hmirror]
                rw [getLast?_cons_of_ne_nil _ _ (landingsAux_ne_nil _ _)]
                rw [← hqpos]
                exact hlast'
              · rw [landingsAux_cons, hmirror]
                rw [List.dropLast_cons_of_ne_nil (landingsAux_ne_nil _ _)]
                intro x hx
                rw [List.mem_cons] at hx
                rcases hx with hx | hx
                · subst hx
                  exact hnp
                · have hx' : x ∈ (landingsAux movedPiece.position ds').dropLast := by
                    rw [hqpos]
                    exact hx
                  have hdp := hdrop' x hx'
                  rw [hmp] at hdp
                  exact hdp
              · rw [← hmp]
                exact hiff'
            · rw [if_neg hcont, List.mem_singleton] at hmem
              subst hmem
              refine ⟨[capture.captures.headD { row := 0, col := 0 }], rfl, rfl, ?_, ?_, ?_⟩
              · rw [landingsAux_cons, hmirror, landingsAux_nil]
                rw [getLast?_cons_of_ne_nil _ _ (by simp)]
                rfl
              · rw [landingsAux_cons, hmirror, landingsAux_nil]
                rw [List.dropLast_cons_of_ne_nil (by simp), List.dropLast_single]
                intro x hx
                rw [List.mem_singleton] at hx
                subst hx
                exact hnp
              · show capture.isPromotion = true ↔
                  capture.toPos.row = promotionRow piece.player
                rw [hprom]
                rw [shouldPromote_man_iff piece capture.toPos hman]

/-- C3: for a man on the board, every capture move emitted by the rules
engine ends at the reconstructed final landing square, its
`isPromotion` flag is set exactly when that final landing square is the
opponent's back rank, and no intermediate landing of the chain (the
start square included) lies on the back rank — the chain can reach the
back rank only with its last jump, where it stops even if further jumps
would be geometrically available. -/
theorem promotion_stops_chain (board : Board) (piece : Piece) (mv : Move)
    (hman : piece.type = PieceType.man)
    (hon : getPieceAt board piece.position = some piece)
    (hmem : mv ∈ getCapturesForPiece board piece) :
    (landingsAux mv.fromPos mv.captures).getLast? = some mv.toPos ∧
    (mv.isPromotion = true ↔ mv.toPos.row = promotionRow piece.player) ∧
    ∀ x ∈ (landingsAux mv.fromPos mv.captures).dropLast,
      x.row ≠ promotionRow piece.player := by
  unfold getCapturesForPiece at hmem
  by_cases hs : (getSingleCaptures board piece).length = 0
  · rw [if_pos hs] at hmem
    simp at hmem
  · rw [if_neg hs] at hmem
    rw [List.mem_flatMap] at hmem
    obtain ⟨capture, hcap, hmem⟩ := hmem
    obtain ⟨dir, hdir, actual, hact, hap, hfrom, hto, hcaps, hprom, hvj, hvl,
      ⟨jp, hjp, hjpp⟩, hland⟩ := mem_getSingleCaptures hcap
    have hd := dir_delta dir (mem_getValidDirections piece dir hdir)
    have hfwd := man_dir piece dir hman hdir
    have hbj := valid_bounds _ hvj
    simp only at hbj
    have hnp : piece.position.row ≠ promotionRow piece.player := by
      cases hpl : piece.player with
      | human =>
        rw [hpl] at hfwd
        simp only [getForwardDirection] at hfwd
        simp only [promotionRow]
        omega
      | agatha =>
        rw [hpl] at hfwd
        simp only [getForwardDirection] at hfwd
        simp only [promotionRow]
        omega
    have hc0 : capture.captures.headD { row := 0, col := 0 } =
        { row := piece.position.row + dir.rowDelta,
          col := piece.position.col + dir.colDelta } := by
      rw [hcaps]
      rfl
    have hmirror : jumpLanding piece.position
        (capture.captures.headD { row := 0, col := 0 }) = capture.toPos := by
      rw [hc0, hto]
      unfold jumpLanding
      simp only [Pos.mk.injEq]
      constructor <;> omega
    have hc0ne : capture.captures.headD { row := 0, col := 0 } ≠ capture.toPos := by
      rw [hc0, hto]
      intro hcon
      have hcr := congrArg Pos.row hcon
      simp only at hcr
      rcases hd.1 with h1 | h1 <;> omega
    simp only at hmem
    cases hmv : (movePiece (cloneBoard board) piece.position capture.toPos).2 with
    | none =>
      rw [hmv] at hmem
      simp at hmem
    | some movedPiece =>
      rw [hmv] at hmem
      dsimp only at hmem
      obtain ⟨q, hq, hqplayer, hqpos, hqtype⟩ := movePiece_snd hmv
      rw [cloneBoard_eq] at hq
      rw [hon] at hq
      have hqa : q = piece := (Option.some.inj hq).symm
      rw [hqa] at hqplayer hqtype
      have hmp : movedPiece.player = piece.player := hqplayer
      by_cases hk : (movedPiece.type == PieceType.king &&
          piece.type == PieceType.man) = true
      · rw [if_pos hk, List.mem_singleton] at hmem
        subst hmem
        have hking : movedPiece.type = PieceType.king := by
          rw [Bool.and_eq_true, beq_iff_eq] at hk
          exact hk.1
        have hpromoted : shouldPromote piece capture.toPos = true := by
          by_contra hnot
          rw [hqtype, if_neg (by simpa using hnot), hman] at hking
          exact PieceType.noConfusion hking
        have hrow : capture.toPos.row = promotionRow piece.player :=
          (shouldPromote_man_iff piece capture.toPos hman).mp hpromoted
        refine ⟨?_, ?_, ?_⟩
        · show (landingsAux piece.position _).getLast? = _
          rw [landingsAux_cons, hmirror, landingsAux_nil]
          rw [getLast?_cons_of_ne_nil _ _ (by simp)]
          rfl
        · show true = true ↔ capture.toPos.row = promotionRow piece.player
          rw [hrow]
          exact ⟨fun _ => rfl, fun _ => rfl⟩
        · show ∀ x ∈ (landingsAux piece.position _).dropLast, _
          rw [landingsAux_cons, hmirror, landingsAux_nil]
          rw [List.dropLast_cons_of_ne_nil (by simp), List.dropLast_single]
          intro x hx
          rw [List.mem_singleton] at hx
          subst hx
          exact hnp
      · rw [if_neg hk] at hmem
        have hmovedman : movedPiece.type = PieceType.man := by
          rw [hqtype] at hk ⊢
          rw [hman]
          by_cases hsp : shouldPromote piece capture.toPos = true
          · exfalso
            rw [if_pos hsp, hman] at hk
            simp at hk
          · rw [if_neg hsp]
        have hnotprom : shouldPromote piece capture.toPos = false := by
          by_contra hnot
          rw [hqtype, if_pos (by simpa using hnot)] at hmovedman
          exact PieceType.noConfusion hmovedman
        have hrowne : capture.toPos.row ≠ promotionRow piece.player := by
          intro hrow
          have hsp := (shouldPromote_man_iff piece capture.toPos hman).mpr hrow
          rw [hsp] at hnotprom
          exact Bool.noConfusion hnotprom
        by_cases hcont : (findMultiJumps
            (removePieceAt (movePiece (cloneBoard board) piece.position
              capture.toPos).1
              (capture.captures.headD { row := 0, col := 0 })).1 movedPiece
            [capture.captures.headD { row := 0, col := 0 }] piece.position).length > 0
        · rw [if_pos hcont] at hmem
          have htynext : ∀ q', getPieceAt (removePieceAt
              (movePiece (cloneBoard board) piece.position capture.toPos).1
              (capture.captures.headD { row := 0, col := 0 })).1
                movedPiece.position = some q' →
              q'.player = movedPiece.player → q'.type = movedPiece.type := by
            intro q' hq' hq'p
            rw [hqpos] at hq'
            rw [getPieceAt_removePieceAt_ne _ _ _ hc0ne] at hq'
            unfold movePiece at hq'
            rw [cloneBoard_eq, hon] at hq'
            dsimp only at hq'
            rcases getPieceAt_setCellAt_self_or
                (setCellAt board piece.position none) capture.toPos
                (some { player := piece.player,
                        type := if shouldPromote piece capture.toPos then
                          PieceType.king else piece.type,
                        position := capture.toPos }) with hcase | hcase
            · rw [hcase] at hq'
              have hqq := Option.some.inj hq'
              subst hqq
              rw [← hqtype]
            · rw [hcase] at hq'
              rw [getPieceAt_setCellAt_ne _ _ _ _ (by
                rw [hto]
                intro hcon
                have hcr := congrArg Pos.row hcon
                simp only at hcr
                rcases hd.1 with h1 | h1 <;> omega)] at hq'
              rw [hland] at hq'
              exact Option.noConfusion hq'
          obtain ⟨ds', hcaps', hfrom', hlast', hdrop', hiff'⟩ :=
            findMultiJumpsAux_promotion _ _ movedPiece _ piece.position mv hmovedman
              (by rw [hqpos, hmp]; exact hrowne) htynext hmem
          refine ⟨?_, ?_, ?_⟩
          · rw [hfrom', hcaps']
            show (landingsAux piece.position _).getLast? = _
            rw [List.singleton_append, landingsAux_cons, hmirror]
            rw [getLast?_cons_of_ne_nil _ _ (landingsAux_ne_nil _ _)]
            rw [← hqpos]
            exact hlast'
          · rw [← hmp]
            exact hiff'
          · rw [hfrom', hcaps']
            rw [List.singleton_append, landingsAux_cons, hmirror]
            rw [List.dropLast_cons_of_ne_nil (landingsAux_ne_nil _ _)]
            intro x hx
            rw [List.mem_cons] at hx
            rcases hx with hx | hx
            · subst hx
              exact hnp
            · have hx' : x ∈ (landingsAux movedPiece.position ds').dropLast := by
                rw [hqpos]
                exact hx
              have hdp := hdrop' x hx'
              rw [hmp] at hdp
              exact hdp
        · rw [if_neg hcont, List.mem_singleton] at hmem
          subst hmem
          refine ⟨?_, ?_, ?_⟩
          · rw [hfrom, hcaps, ← hc0]
            rw [landingsAux_cons, hmirror, landingsAux_nil]
            rw [getLast?_cons_of_ne_nil _ _ (by simp)]
            rw [List.getLast?_singleton, hto]
          · rw [hprom]
            exact shouldPromote_man_iff piece mv.toPos hman
          · rw [hfrom, hcaps, ← hc0]
            rw [landingsAux_cons, hmirror, landingsAux_nil]
            rw [List.dropLast_cons_of_ne_nil (by simp), List.dropLast_single]
            intro x hx
            rw [List.mem_singleton] at hx
            subst hx
            exact hnp

/-- Fixture for the promotion-stop scenario: a human man at (2,1) with
Agatha men at (1,2) and (1,4). -/
def c3Board : Board := boardWith [hman 2 1, aman 1 2, aman 1 4]

/-- The single capture move the engine emits on `c3Board` for the man at
(2,1): jump over (1,2), land on the back rank at (0,3), promote, stop. -/
def c3Move : Move :=
  { fromPos := { row := 2, col := 1 }, toPos := { row := 0, col := 3 },
    captures := [{ row := 1, col := 2 }], isPromotion := true }

/-- Witness for `promotion_stops_chain`: on `c3Board` the engine emits
exactly the single-jump promoting move, even though from the landing
square (0,3) a further jump over the Agatha man at (1,4) onto the empty
square (2,5) is geometrically available — the chain stops on promotion. -/
theorem promotion_stops_chain_witness :
    getCapturesForPiece c3Board (hman 2 1) = [c3Move] ∧
    getPieceAt c3Board { row := 1, col := 4 } = some (aman 1 4) ∧
    getPieceAt c3Board { row := 2, col := 5 } = none ∧
    ((landingsAux c3Move.fromPos c3Move.captures).getLast? = some c3Move.toPos ∧
     (c3Move.isPromotion = true ↔ c3Move.toPos.row = promotionRow (hman 2 1).player) ∧
     ∀ x ∈ (landingsAux c3Move.fromPos c3Move.captures).dropLast,
       x.row ≠ promotionRow (hman 2 1).player) :=
  ⟨by decide, by decide, by decide,
   promotion_stops_chain c3Board (hman 2 1) c3Move rfl (by decide) (by decide)⟩

/-! ### C9: heap model of boards

`cloneBoard`'s guarantee is about JavaScript object identity: the clone
must share no mutable object (row array, cell, piece, position) with the
original, so that in-place mutation of the clone — `movePiece` assigns
`piece.position` and `piece.type` on the piece object itself — cannot be
observed through the original board.  The pure `Board` embedding above
cannot express this, so here boards are re-embedded with an explicit
heap: piece objects live in a heap (`PieceHeap`, a reference is an index,
allocation appends), the grid (`RefBoard`) holds references, and a JS
field assignment on a piece object becomes `List.set` on the heap at its
reference.  `Pos` values are copied wholesale by every source mutation
(`piece.position = { row, col }`), so positions stay values.  Row and
cell mutation of one `RefBoard` value is a pure operation that by
construction cannot touch another `RefBoard` value, which models the
fact that `board.map(row => row.map(...))` allocates fresh outer and row
arrays; the content shared between original and clone is exactly the
piece references, which is what the heap tracks.  A grid cell holding a
dangling reference is unrepresentable in JS (the cell holds the object
itself); the operations below read such a cell as empty, and the
theorems assume well-formedness (`refsOf`, all references valid). -/

/-- Heap of piece objects; a reference is an index into the heap. -/
abbrev PieceHeap := List Piece

/-- A board grid holding references to piece objects instead of values. -/
abbrev RefBoard := List (List (Option Nat))

/-- All references stored in a grid. -/
def refsOf (rb : RefBoard) : List Nat :=
  rb.flatMap fun row => row.filterMap id

/-- Reference-level `board[r][c]`, mirroring `getCell`. -/
def getRefCell (rb : RefBoard) (r c : Nat) : Option Nat :=
  (rb.getD r []).getD c none

/-- Reference-level raw write `board[r][c] = v`, mirroring `setCellRaw`. -/
def setRefCellRaw (rb : RefBoard) (r c : Nat) (v : Option Nat) : RefBoard :=
  rb.set r ((rb.getD r []).set c v)

/-- Reference-level read at a `Pos`, mirroring `getPieceAt`'s guard. -/
def getRefAt (rb : RefBoard) (pos : Pos) : Option Nat :=
  if isValidPosition pos then getRefCell rb pos.row.toNat pos.col.toNat
  else none

/-- Reference-level write at a `Pos`, mirroring `setCellAt`. -/
def setRefAt (rb : RefBoard) (pos : Pos) (v : Option Nat) : RefBoard :=
  if isValidPosition pos then setRefCellRaw rb pos.row.toNat pos.col.toNat v
  else rb

/-- The pure board a heap board denotes: each cell dereferenced. -/
def denoteRow (h : PieceHeap) (row : List (Option Nat)) : List (Option Piece) :=
  row.map fun c => c.bind fun r => h[r]?

/-- The pure board a heap board denotes. -/
def denoteBoard (h : PieceHeap) (rb : RefBoard) : Board :=
  rb.map fun row => denoteRow h row

/-- `getPieceAt` on a heap board. -/
def getPieceAtH (h : PieceHeap) (rb : RefBoard) (pos : Pos) : Option Piece :=
  (getRefAt rb pos).bind fun r => h[r]?

/-- Default piece used to totalise a heap read at a dangling reference
(unreachable under the well-formedness assumed by every theorem). -/
def defaultPiece : Piece :=
  { player := Player.human, type := PieceType.man,
    position := { row := 0, col := 0 } }

/-- `cloneBoard`'s per-cell body on a heap board: `null` stays `null`, a
piece object is read and a fresh copy of it (fresh position object
included) is allocated at the end of the heap. -/
def cloneCellH (h : PieceHeap) (c : Option Nat) : PieceHeap × Option Nat :=
  match c with
  | none => (h, none)
  | some r =>
    let p := h.getD r defaultPiece
    (h ++ [{ player := p.player, type := p.type,
             position := { row := p.position.row, col := p.position.col } }],
     some h.length)

/-- `cloneBoard`'s inner `row.map`, threading the allocation heap. -/
def cloneRowH (h : PieceHeap) (row : List (Option Nat)) :
    PieceHeap × List (Option Nat) :=
  match row with
  | [] => (h, [])
  | c :: cs =>
    let hc := cloneCellH h c
    let hcs := cloneRowH hc.1 cs
    (hcs.1, hc.2 :: hcs.2)

/-- `cloneBoard` on a heap board: `board.map(row => row.map(cell => ...))`
with every piece object re-allocated. -/
def cloneBoardH (h : PieceHeap) (rb : RefBoard) : PieceHeap × RefBoard :=
  match rb with
  | [] => (h, [])
  | row :: rows =>
    let hr := cloneRowH h row
    let hrs := cloneBoardH hr.1 rows
    (hrs.1, hr.2 :: hrs.2)

/-- `removePieceAt` on a heap board: reads the cell, clears it if a piece
is there; the heap is untouched. -/
def removePieceAtH (h : PieceHeap) (rb : RefBoard) (pos : Pos) :
    RefBoard × Option Nat :=
  match getRefAt rb pos with
  | none => (rb, none)
  | some r =>
    match h[r]? with
    | none => (rb, none)
    | some _ => (setRefAt rb pos none, some r)

/-- `movePiece` on a heap board: clears the source cell, mutates the
piece object in place (position update and possible promotion become a
heap write at its reference), and stores the same reference at the
destination cell. -/
def movePieceH (h : PieceHeap) (rb : RefBoard) (fromP toP : Pos) :
    PieceHeap × RefBoard × Option Nat :=
  match getRefAt rb fromP with
  | none => (h, rb, none)
  | some r =>
    match h[r]? with
    | none => (h, rb, none)
    | some piece =>
      let rb1 := setRefAt rb fromP none
      let piece' : Piece :=
        { player := piece.player
          type := if shouldPromote piece toP then PieceType.king else piece.type
          position := toP }
      let h1 := h.set r piece'
      let rb2 := setRefAt rb1 toP (some r)
      (h1, rb2, some r)

/-- `executeMove` on a heap board. -/
def executeMoveH (h : PieceHeap) (rb : RefBoard) (move : Move) :
    Bool × PieceHeap × RefBoard :=
  match getPieceAtH h rb move.fromPos with
  | none => (false, h, rb)
  | some _ =>
    if isGeometricallyValid move = false then (false, h, rb)
    else
      let rb1 := move.captures.foldl (fun b pos => (removePieceAtH h b pos).1) rb
      let res := movePieceH h rb1 move.fromPos move.toPos
      (true, res.1, res.2.1)

/-- `simulateMove` on a heap board: clone, then execute on the clone. -/
def simulateMoveH (h : PieceHeap) (rb : RefBoard) (move : Move) :
    PieceHeap × RefBoard :=
  let c := cloneBoardH h rb
  let r := executeMoveH c.1 c.2 move
  (r.2.1, r.2.2)

theorem mem_refsOf {rb : RefBoard} {row : List (Option Nat)} {r : Nat}
    (hrow : row ∈ rb) (hr : some r ∈ row) : r ∈ refsOf rb := by
  unfold refsOf
  rw [List.mem_flatMap]
  exact ⟨row, hrow, List.mem_filterMap.mpr ⟨some r, hr, rfl⟩⟩

theorem denoteRow_congr {h₁ h₂ : PieceHeap} {row : List (Option Nat)}
    (hpt : ∀ r, some r ∈ row → h₁[r]? = h₂[r]?) :
    denoteRow h₁ row = denoteRow h₂ row := by
  unfold denoteRow
  refine List.map_congr_left ?_
  intro c hc
  cases c with
  | none => rfl
  | some r => simp only [Option.some_bind, hpt r hc]

theorem denoteBoard_congr {h₁ h₂ : PieceHeap} {rb : RefBoard}
    (hpt : ∀ r ∈ refsOf rb, h₁[r]? = h₂[r]?) :
    denoteBoard h₁ rb = denoteBoard h₂ rb := by
  unfold denoteBoard
  refine List.map_congr_left ?_
  intro row hrow
  exact denoteRow_congr fun r hr => hpt r (mem_refsOf hrow hr)

theorem denoteBoard_append {h t : PieceHeap} {rb : RefBoard}
    (hwf : ∀ r ∈ refsOf rb, r < h.length) :
    denoteBoard (h ++ t) rb = denoteBoard h rb :=
  denoteBoard_congr fun r hr => List.getElem?_append_left (hwf r hr)

theorem denoteBoard_set {h : PieceHeap} {rb : RefBoard} {r' : Nat} {p : Piece}
    (hne : ∀ r ∈ refsOf rb, r ≠ r') :
    denoteBoard (h.set r' p) rb = denoteBoard h rb :=
  denoteBoard_congr fun r hr => List.getElem?_set_ne (fun he => hne r hr he.symm)

theorem getRefCell_mem_refsOf {rb : RefBoard} {r c x : Nat}
    (h : getRefCell rb r c = some x) : x ∈ refsOf rb := by
  unfold getRefCell at h
  by_cases hr : r < rb.length
  · have hrowmem : rb.getD r [] ∈ rb := by
      rw [List.getD_eq_getElem?_getD, List.getElem?_eq_getElem hr]
      exact List.getElem_mem hr
    have hsome : some x ∈ rb.getD r [] := by
      by_cases hc : c < (rb.getD r []).length
      · rw [List.getD_eq_getElem?_getD, List.getElem?_eq_getElem hc] at h
        simp only [Option.getD_some] at h
        rw [← h]
        exact List.getElem_mem hc
      · rw [List.getD_eq_getElem?_getD, List.getElem?_eq_none (by omega)] at h
        exact absurd h (by simp)
    exact mem_refsOf hrowmem hsome
  · rw [List.getD_eq_getElem?_getD rb r [], List.getElem?_eq_none (by omega)] at h
    simp at h

theorem getRefAt_mem_refsOf {rb : RefBoard} {pos : Pos} {x : Nat}
    (h : getRefAt rb pos = some x) : x ∈ refsOf rb := by
  unfold getRefAt at h
  by_cases hv : isValidPosition pos = true
  · rw [if_pos hv] at h
    exact getRefCell_mem_refsOf h
  · rw [if_neg hv] at h
    exact Option.noConfusion h

theorem mem_refsOf_setRefCellRaw {rb : RefBoard} {r c : Nat} {v : Option Nat}
    {x : Nat} (h : x ∈ refsOf (setRefCellRaw rb r c v)) :
    x ∈ refsOf rb ∨ v = some x := by
  unfold setRefCellRaw at h
  unfold refsOf at h
  rw [List.mem_flatMap] at h
  obtain ⟨row, hrow, hx⟩ := h
  rcases List.mem_or_eq_of_mem_set hrow with hrow | hrow
  · left
    unfold refsOf
    rw [List.mem_flatMap]
    exact ⟨row, hrow, hx⟩
  · subst hrow
    rw [List.mem_filterMap] at hx
    obtain ⟨c', hc', hcx⟩ := hx
    rw [id_eq] at hcx
    subst hcx
    rcases List.mem_or_eq_of_mem_set hc' with hc' | hc'
    · left
      refine mem_refsOf ?_ hc'
      by_cases hr : r < rb.length
      · rw [List.getD_eq_getElem?_getD, List.getElem?_eq_getElem hr]
        exact List.getElem_mem hr
      · rw [List.getD_eq_getElem?_getD rb r [],
          List.getElem?_eq_none (by omega)] at hc'
        simp at hc'
    · right
      exact hc'.symm

theorem mem_refsOf_setRefAt {rb : RefBoard} {pos : Pos} {v : Option Nat}
    {x : Nat} (h : x ∈ refsOf (setRefAt rb pos v)) :
    x ∈ refsOf rb ∨ v = some x := by
  unfold setRefAt at h
  by_cases hv : isValidPosition pos = true
  · rw [if_pos hv] at h
    exact mem_refsOf_setRefCellRaw h
  · rw [if_neg hv] at h
    exact Or.inl h

theorem mem_refsOf_removePieceAtH {h : PieceHeap} {rb : RefBoard} {pos : Pos}
    {x : Nat} (hx : x ∈ refsOf (removePieceAtH h rb pos).1) : x ∈ refsOf rb := by
  unfold removePieceAtH at hx
  cases hg : getRefAt rb pos with
  | none =>
    rw [hg] at hx
    exact hx
  | some r =>
    rw [hg] at hx
    dsimp only at hx
    cases hr : h[r]? with
    | none =>
      rw [hr] at hx
      exact hx
    | some p =>
      rw [hr] at hx
      dsimp only at hx
      rcases mem_refsOf_setRefAt hx with hx | hx
      · exact hx
      · exact Option.noConfusion hx

theorem mem_refsOf_captureFold {h : PieceHeap} {ps : List Pos} :
    ∀ {rb : RefBoard} {x : Nat},
      x ∈ refsOf (ps.foldl (fun b pos => (removePieceAtH h b pos).1) rb) →
      x ∈ refsOf rb := by
  induction ps with
  | nil => intro rb x hx; exact hx
  | cons p ps ih =>
    intro rb x hx
    rw [List.foldl_cons] at hx
    exact mem_refsOf_removePieceAtH (ih hx)

theorem cloneCellH_spec (h : PieceHeap) (c : Option Nat) :
    (∃ t, (cloneCellH h c).1 = h ++ t) ∧
    (∀ r', (cloneCellH h c).2 = some r' →
      h.length ≤ r' ∧ r' < (cloneCellH h c).1.length) ∧
    ((∀ r, c = some r → r < h.length) →
      ((cloneCellH h c).2.bind fun r' => (cloneCellH h c).1[r']?) =
        (c.bind fun r => h[r]?)) := by
  cases c with
  | none =>
    refine ⟨⟨[], by simp [cloneCellH]⟩, ?_, ?_⟩
    · intro r' hr'
      exact Option.noConfusion hr'
    · intro _
      rfl
  | some r =>
    unfold cloneCellH
    dsimp only
    refine ⟨⟨_, rfl⟩, ?_, ?_⟩
    · intro r' hr'
      have : h.length = r' := Option.some.inj hr'
      subst this
      simp
    · intro hlt
      have hr : r < h.length := hlt r rfl
      rw [Option.some_bind, Option.some_bind]
      rw [List.getElem?_append_right (Nat.le_refl _)]
      simp only [Nat.sub_self, List.getElem?_cons_zero]
      rw [List.getElem?_eq_getElem hr]
      have hp : h.getD r defaultPiece = h[r] := by
        rw [List.getD_eq_getElem?_getD, List.getElem?_eq_getElem hr]
        rfl
      rw [hp]

theorem cloneRowH_spec (row : List (Option Nat)) :
    ∀ h : PieceHeap,
    (∃ t, (cloneRowH h row).1 = h ++ t) ∧
    (∀ r' ∈ (cloneRowH h row).2.filterMap id,
      h.length ≤ r' ∧ r' < (cloneRowH h row).1.length) ∧
    ((∀ r, some r ∈ row → r < h.length) →
      denoteRow (cloneRowH h row).1 (cloneRowH h row).2 = denoteRow h row) := by
  induction row with
  | nil =>
    intro h
    refine ⟨⟨[], by simp [cloneRowH]⟩, ?_, ?_⟩
    · intro r' hr'
      simp [cloneRowH] at hr'
    · intro _
      rfl
  | cons c cs ih =>
    intro h
    obtain ⟨⟨t0, ht0⟩, hcellref, hcelldenote⟩ := cloneCellH_spec h c
    obtain ⟨⟨t1, ht1⟩, hrowref, hrowdenote⟩ := ih (cloneCellH h c).1
    have hres : cloneRowH h (c :: cs) =
        ((cloneRowH (cloneCellH h c).1 cs).1,
         (cloneCellH h c).2 :: (cloneRowH (cloneCellH h c).1 cs).2) := rfl
    have hlenA : h.length ≤ (cloneCellH h c).1.length := by
      rw [ht0]
      simp
    have hlenB : (cloneCellH h c).1.length ≤
        (cloneRowH (cloneCellH h c).1 cs).1.length := by
      rw [ht1]
      simp
    refine ⟨⟨t0 ++ t1, by rw [hres, ht1, ht0, List.append_assoc]⟩, ?_, ?_⟩
    · intro r' hr'
      rw [hres] at hr'
      rw [List.mem_filterMap] at hr'
      obtain ⟨a, ha, hid⟩ := hr'
      rw [id_eq] at hid
      subst hid
      rw [List.mem_cons] at ha
      rcases ha with ha | ha
      · have hb := hcellref r' ha.symm
        exact ⟨hb.1, lt_of_lt_of_le hb.2 hlenB⟩
      · have hb := hrowref r' (List.mem_filterMap.mpr ⟨some r', ha, rfl⟩)
        exact ⟨le_trans hlenA hb.1, hb.2⟩
    · intro hwf
      rw [hres]
      unfold denoteRow
      rw [List.map_cons, List.map_cons]
      have hhead : ((cloneCellH h c).2.bind
          fun r' => (cloneRowH (cloneCellH h c).1 cs).1[r']?) =
          (c.bind fun r => h[r]?) := by
        have hstep := hcelldenote fun r hr => hwf r (by rw [hr]; exact List.mem_cons_self _ _)
        rw [← hstep]
        cases hc2 : (cloneCellH h c).2 with
        | none => rfl
        | some r' =>
          rw [Option.some_bind, Option.some_bind, ht1]
          exact List.getElem?_append_left (hcellref r' hc2).2
      have htail : List.map (fun c' => c'.bind
          fun r' => (cloneRowH (cloneCellH h c).1 cs).1[r']?)
            (cloneRowH (cloneCellH h c).1 cs).2 =
          List.map (fun c' => c'.bind fun r => h[r]?) cs := by
        have hA : denoteRow (cloneRowH (cloneCellH h c).1 cs).1
            (cloneRowH (cloneCellH h c).1 cs).2 =
            denoteRow (cloneCellH h c).1 cs :=
          hrowdenote fun r hr =>
            lt_of_lt_of_le (hwf r (List.mem_cons_of_mem _ hr)) hlenA
        have hB : denoteRow (cloneCellH h c).1 cs = denoteRow h cs := by
          refine denoteRow_congr ?_
          intro r hr
          rw [ht0]
          exact List.getElem?_append_left (hwf r (List.mem_cons_of_mem _ hr))
        unfold denoteRow at hA hB
        rw [hA, hB]
      rw [hhead, htail]

theorem cloneBoardH_spec (rb : RefBoard) :
    ∀ h : PieceHeap,
    (∃ t, (cloneBoardH h rb).1 = h ++ t) ∧
    (∀ r' ∈ refsOf (cloneBoardH h rb).2,
      h.length ≤ r' ∧ r' < (cloneBoardH h rb).1.length) ∧
    ((∀ r ∈ refsOf rb, r < h.length) →
      denoteBoard (cloneBoardH h rb).1 (cloneBoardH h rb).2 = denoteBoard h rb) := by
  induction rb with
  | nil =>
    intro h
    refine ⟨⟨[], by simp [cloneBoardH]⟩, ?_, ?_⟩
    · intro r' hr'
      simp [cloneBoardH, refsOf] at hr'
    · intro _
      rfl
  | cons row rows ih =>
    intro h
    obtain ⟨⟨t0, ht0⟩, hrowref, hrowdenote⟩ := cloneRowH_spec row h
    obtain ⟨⟨t1, ht1⟩, hboardref, hboarddenote⟩ := ih (cloneRowH h row).1
    have hres : cloneBoardH h (row :: rows) =
        ((cloneBoardH (cloneRowH h row).1 rows).1,
         (cloneRowH h row).2 :: (cloneBoardH (cloneRowH h row).1 rows).2) := rfl
    have hlenA : h.length ≤ (cloneRowH h row).1.length := by
      rw [ht0]
      simp
    have hlenB : (cloneRowH h row).1.length ≤
        (cloneBoardH (cloneRowH h row).1 rows).1.length := by
      rw [ht1]
      simp
    have hwfrow : ∀ r, some r ∈ row → r ∈ refsOf (row :: rows) := by
      intro r hr
      exact mem_refsOf (List.mem_cons_self _ _) hr
    have hwfrows : ∀ r, r ∈ refsOf rows → r ∈ refsOf (row :: rows) := by
      intro r hr
      unfold refsOf at hr ⊢
      rw [List.flatMap_cons]
      exact List.mem_append_right _ hr
    refine ⟨⟨t0 ++ t1, by rw [hres, ht1, ht0, List.append_assoc]⟩, ?_, ?_⟩
    · intro r' hr'
      rw [hres] at hr'
      unfold refsOf at hr'
      rw [List.flatMap_cons, List.mem_append] at hr'
      rcases hr' with hr' | hr'
      · have hb := hrowref r' hr'
        exact ⟨hb.1, lt_of_lt_of_le hb.2 hlenB⟩
      · have hb := hboardref r' hr'
        exact ⟨le_trans hlenA hb.1, hb.2⟩
    · intro hwf
      rw [hres]
      unfold denoteBoard
      rw [List.map_cons, List.map_cons]
      have hhead : denoteRow (cloneBoardH (cloneRowH h row).1 rows).1
          (cloneRowH h row).2 = denoteRow h row := by
        have hstep := hrowdenote fun r hr => hwf r (hwfrow r hr)
        rw [← hstep]
        refine denoteRow_congr ?_
        intro r hr
        rw [ht1]
        exact List.getElem?_append_left
          (hrowref r (List.mem_filterMap.mpr ⟨some r, hr, rfl⟩)).2
      have htail : List.map (denoteRow (cloneBoardH (cloneRowH h row).1 rows).1)
          (cloneBoardH (cloneRowH h row).1 rows).2 =
          List.map (denoteRow h) rows := by
        have hA : denoteBoard (cloneBoardH (cloneRowH h row).1 rows).1
            (cloneBoardH (cloneRowH h row).1 rows).2 =
            denoteBoard (cloneRowH h row).1 rows :=
          hboarddenote fun r hr => lt_of_lt_of_le (hwf r (hwfrows r hr)) hlenA
        have hB : denoteBoard (cloneRowH h row).1 rows = denoteBoard h rows := by
          refine denoteBoard_congr ?_
          intro r hr
          rw [ht0]
          exact List.getElem?_append_left (hwf r (hwfrows r hr))
        unfold denoteBoard at hA hB
        rw [hA, hB]
      rw [hhead, htail]

theorem executeMoveH_spec (h1 : PieceHeap) (rb' : RefBoard) (move : Move) :
    ((executeMoveH h1 rb' move).2.1 = h1 ∨
      ∃ r p, r ∈ refsOf rb' ∧ (executeMoveH h1 rb' move).2.1 = h1.set r p) ∧
    (∀ x ∈ refsOf (executeMoveH h1 rb' move).2.2, x ∈ refsOf rb') := by
  unfold executeMoveH
  cases hgp : getPieceAtH h1 rb' move.fromPos with
  | none =>
    exact ⟨Or.inl rfl, fun x hx => hx⟩
  | some pc =>
    by_cases hgeo : isGeometricallyValid move = false
    · rw [if_pos hgeo]
      exact ⟨Or.inl rfl, fun x hx => hx⟩
    · rw [if_neg hgeo]
      dsimp only
      unfold movePieceH
      cases hg : getRefAt
          (move.captures.foldl (fun b pos => (removePieceAtH h1 b pos).1) rb')
          move.fromPos with
      | none =>
        exact ⟨Or.inl rfl, fun x hx => mem_refsOf_captureFold hx⟩
      | some r =>
        dsimp only
        cases hr : h1[r]? with
        | none =>
          exact ⟨Or.inl rfl, fun x hx => mem_refsOf_captureFold hx⟩
        | some piece =>
          dsimp only
          refine ⟨Or.inr ⟨r, _,
            mem_refsOf_captureFold (getRefAt_mem_refsOf hg), rfl⟩, ?_⟩
          intro x hx
          rcases mem_refsOf_setRefAt hx with hx | hx
          · rcases mem_refsOf_setRefAt hx with hx | hx
            · exact mem_refsOf_captureFold hx
            · exact Option.noConfusion hx
          · have hxr : x = r := (Option.some.inj hx).symm
            subst hxr
            exact mem_refsOf_captureFold (getRefAt_mem_refsOf hg)

/-- C9: in the heap model of boards — piece objects live in a heap, the
grid holds references, and `movePiece`'s in-place field assignments are
heap writes — `cloneBoard` returns a board denoting the same pure board
as its input (same occupancy, and per cell the same player, rank and
stored position) whose piece objects are all freshly allocated, so
overwriting any piece object of the clone leaves the original board's
denotation unchanged; and `simulateMove` leaves its input board's
denotation unchanged through its whole execution and returns a board
that shares no piece object with the input.  (Grid mutation of the clone
cannot affect the original by construction of the model: `cloneBoard`'s
`map` allocates fresh outer and row arrays, so the clone's grid is a
separate `RefBoard` value.) -/
theorem simulateMove_cloneBoard_frame (h : PieceHeap) (rb : RefBoard) (move : Move)
    (hwf : ∀ r ∈ refsOf rb, r < h.length) :
    denoteBoard (cloneBoardH h rb).1 (cloneBoardH h rb).2 = denoteBoard h rb ∧
    (∀ r' ∈ refsOf (cloneBoardH h rb).2, h.length ≤ r') ∧
    (∀ r' ∈ refsOf (cloneBoardH h rb).2, ∀ p : Piece,
      denoteBoard ((cloneBoardH h rb).1.set r' p) rb = denoteBoard h rb) ∧
    denoteBoard (simulateMoveH h rb move).1 rb = denoteBoard h rb ∧
    (∀ r' ∈ refsOf (simulateMoveH h rb move).2, h.length ≤ r') := by
  obtain ⟨⟨t, ht⟩, hrefs, hdenote⟩ := cloneBoardH_spec rb h
  have hext : denoteBoard (cloneBoardH h rb).1 rb = denoteBoard h rb := by
    rw [ht]
    exact denoteBoard_append hwf
  obtain ⟨hheap, hgrid⟩ :=
    executeMoveH_spec (cloneBoardH h rb).1 (cloneBoardH h rb).2 move
  refine ⟨hdenote hwf, fun r' hr' => (hrefs r' hr').1, ?_, ?_, ?_⟩
  · intro r' hr' p
    have hset : denoteBoard ((cloneBoardH h rb).1.set r' p) rb =
        denoteBoard (cloneBoardH h rb).1 rb :=
      denoteBoard_set fun r hr => by
        have h1 := hwf r hr
        have h2 := (hrefs r' hr').1
        omega
    rw [hset, hext]
  · show denoteBoard (executeMoveH (cloneBoardH h rb).1 (cloneBoardH h rb).2
      move).2.1 rb = denoteBoard h rb
    rcases hheap with hheap | ⟨r, p, hrmem, hheap⟩
    · rw [hheap, hext]
    · rw [hheap]
      have hset : denoteBoard ((cloneBoardH h rb).1.set r p) rb =
          denoteBoard (cloneBoardH h rb).1 rb :=
        denoteBoard_set fun r'' hr'' => by
          have h1 := hwf r'' hr''
          have h2 := (hrefs r hrmem).1
          omega
      rw [hset, hext]
  · intro r' hr'
    exact (hrefs r' (hgrid r' hr')).1

/-- Heap-board fixture: two piece objects on the heap. -/
def c9Heap : PieceHeap := [hman 5 2, aman 4 3]

/-- Heap-board fixture: 8×8 grid referencing the heap pieces at (5,2)
and (4,3). -/
def c9Grid : RefBoard :=
  (List.range 8).map fun r => (List.range 8).map fun c =>
    if r = 5 ∧ c = 2 then some 0 else if r = 4 ∧ c = 3 then some 1 else none

/-- A capture move of the human man over the Agatha man. -/
def c9Move : Move :=
  { fromPos := { row := 5, col := 2 }, toPos := { row := 3, col := 4 },
    captures := [{ row := 4, col := 3 }], isPromotion := false }

/-- Witness for `simulateMove_cloneBoard_frame` on a concrete heap board:
the clone denotes the same board, overwriting the clone's piece object at
the fresh reference 2 leaves the original's denotation unchanged, and
simulating the capture leaves the original's denotation unchanged while
the result shares no piece object with it. -/
theorem simulateMove_cloneBoard_frame_witness :
    (∀ r ∈ refsOf c9Grid, r < c9Heap.length) ∧
    denoteBoard (cloneBoardH c9Heap c9Grid).1 (cloneBoardH c9Heap c9Grid).2 =
      denoteBoard c9Heap c9Grid ∧
    denoteBoard ((cloneBoardH c9Heap c9Grid).1.set 2 (hman 0 0)) c9Grid =
      denoteBoard c9Heap c9Grid ∧
    denoteBoard (simulateMoveH c9Heap c9Grid c9Move).1 c9Grid =
      denoteBoard c9Heap c9Grid ∧
    (∀ r' ∈ refsOf (simulateMoveH c9Heap c9Grid c9Move).2, c9Heap.length ≤ r') :=
  ⟨by decide,
   (simulateMove_cloneBoard_frame c9Heap c9Grid c9Move (by decide)).1,
   (simulateMove_cloneBoard_frame c9Heap c9Grid c9Move (by decide)).2.2.1 2
     (by decide) (hman 0 0),
   (simulateMove_cloneBoard_frame c9Heap c9Grid c9Move (by decide)).2.2.2.1,
   (simulateMove_cloneBoard_frame c9Heap c9Grid c9Move (by decide)).2.2.2.2⟩

theorem fullMinimax_eq (board : Board) (depth : Nat) (isMax : Bool) :
    fullMinimax board depth isMax =
      match evaluateEndGame board (if isMax then Player.agatha else Player.human) with
      | some e => if isMax then sc (e + (depth : Int)) else sc (-e - (depth : Int))
      | none =>
        match depth with
        | 0 => sc (evaluateBoard board)
        | d + 1 =>
          let moves := getAllValidMoves board (if isMax then Player.agatha else Player.human)
          if moves.length = 0 then
            if isMax then sc (-100000 + ((d : Int) + 1)) else sc (100000 - ((d : Int) + 1))
          else
            if isMax then
              moves.foldl (fun acc mv => max acc (fullMinimax (simulateMove board mv) d false)) ⊥
            else
              moves.foldl (fun acc mv => min acc (fullMinimax (simulateMove board mv) d true)) ⊤ := by
  cases depth with
  | zero => rw [fullMinimax]
  | succ d => rw [fullMinimax]

theorem le_foldl_max {α β : Type*} [LinearOrder α] (g : β → α) :
    ∀ (l : List β) (i : α), i ≤ l.foldl (fun a x => max a (g x)) i
  | [], i => le_refl i
  | m :: rest, i => le_trans (le_max_left i (g m)) (le_foldl_max g rest (max i (g m)))

theorem foldl_max_le {α β : Type*} [LinearOrder α] (g : β → α) :
    ∀ (l : List β) (i c : α), i ≤ c → (∀ x ∈ l, g x ≤ c) →
      l.foldl (fun a x => max a (g x)) i ≤ c
  | [], _, _, hi, _ => hi
  | m :: rest, i, c, hi, h =>
    foldl_max_le g rest (max i (g m)) c (max_le hi (h m (List.mem_cons_self m rest)))
      fun x hx => h x (List.mem_cons_of_mem m hx)

theorem foldl_max_lt {α β : Type*} [LinearOrder α] (g : β → α) :
    ∀ (l : List β) (i c : α), i < c → (∀ x ∈ l, g x < c) →
      l.foldl (fun a x => max a (g x)) i < c
  | [], _, _, hi, _ => hi
  | m :: rest, i, c, hi, h =>
    foldl_max_lt g rest (max i (g m)) c (max_lt hi (h m (List.mem_cons_self m rest)))
      fun x hx => h x (List.mem_cons_of_mem m hx)

theorem foldl_max_mem {α β : Type*} [LinearOrder α] (g : β → α) :
    ∀ (l : List β) (i : α) (x : β), x ∈ l → g x ≤ l.foldl (fun a y => max a (g y)) i
  | [], _, x, hx => absurd hx (List.not_mem_nil x)
  | m :: rest, i, x, hx => by
    rw [List.foldl_cons]
    rcases List.mem_cons.mp hx with h | h
    · subst h
      exact le_trans (le_max_right i (g x)) (le_foldl_max g rest (max i (g x)))
    · exact foldl_max_mem g rest (max i (g m)) x h

theorem foldl_max_acc {α β : Type*} [LinearOrder α] (g : β → α) :
    ∀ (l : List β) (i j : α),
      l.foldl (fun a x => max a (g x)) (max i j) =
        max i (l.foldl (fun a x => max a (g x)) j)
  | [], _, _ => rfl
  | m :: rest, i, j => by
    rw [List.foldl_cons, List.foldl_cons, max_assoc]
    exact foldl_max_acc g rest i (max j (g m))

theorem foldl_max_bot {α β : Type*} [LinearOrder α] [OrderBot α] (g : β → α)
    (l : List β) (i : α) :
    l.foldl (fun a x => max a (g x)) i = max i (l.foldl (fun a x => max a (g x)) ⊥) := by
  have h1 : i = max i ⊥ := (max_eq_left bot_le).symm
  nth_rewrite 1 [h1]
  exact foldl_max_acc g l i ⊥

theorem foldl_min_le {α β : Type*} [LinearOrder α] (g : β → α) :
    ∀ (l : List β) (i : α), l.foldl (fun a x => min a (g x)) i ≤ i
  | [], i => le_refl i
  | m :: rest, i => le_trans (foldl_min_le g rest (min i (g m))) (min_le_left i (g m))

theorem le_foldl_min {α β : Type*} [LinearOrder α] (g : β → α) :
    ∀ (l : List β) (i c : α), c ≤ i → (∀ x ∈ l, c ≤ g x) →
      c ≤ l.foldl (fun a x => min a (g x)) i
  | [], _, _, hi, _ => hi
  | m :: rest, i, c, hi, h =>
    le_foldl_min g rest (min i (g m)) c (le_min hi (h m (List.mem_cons_self m rest)))
      fun x hx => h x (List.mem_cons_of_mem m hx)

theorem lt_foldl_min {α β : Type*} [LinearOrder α] (g : β → α) :
    ∀ (l : List β) (i c : α), c < i → (∀ x ∈ l, c < g x) →
      c < l.foldl (fun a x => min a (g x)) i
  | [], _, _, hi, _ => hi
  | m :: rest, i, c, hi, h =>
    lt_foldl_min g rest (min i (g m)) c (lt_min hi (h m (List.mem_cons_self m rest)))
      fun x hx => h x (List.mem_cons_of_mem m hx)

theorem foldl_min_mem {α β : Type*} [LinearOrder α] (g : β → α) :
    ∀ (l : List β) (i : α) (x : β), x ∈ l → l.foldl (fun a y => min a (g y)) i ≤ g x
  | [], _, x, hx => absurd hx (List.not_mem_nil x)
  | m :: rest, i, x, hx => by
    rw [List.foldl_cons]
    rcases List.mem_cons.mp hx with h | h
    · subst h
      exact le_trans (foldl_min_le g rest (min i (g x))) (min_le_right i (g x))
    · exact foldl_min_mem g rest (min i (g m)) x h

theorem foldl_min_acc {α β : Type*} [LinearOrder α] (g : β → α) :
    ∀ (l : List β) (i j : α),
      l.foldl (fun a x => min a (g x)) (min i j) =
        min i (l.foldl (fun a x => min a (g x)) j)
  | [], _, _ => rfl
  | m :: rest, i, j => by
    rw [List.foldl_cons, List.foldl_cons, min_assoc]
    exact foldl_min_acc g rest i (min j (g m))

theorem foldl_min_top {α β : Type*} [LinearOrder α] [OrderTop α] (g : β → α)
    (l : List β) (i : α) :
    l.foldl (fun a x => min a (g x)) i = min i (l.foldl (fun a x => min a (g x)) ⊤) := by
  have h1 : i = min i ⊤ := (min_eq_left le_top).symm
  nth_rewrite 1 [h1]
  exact foldl_min_acc g l i ⊤

/-- Fail-soft alpha-beta contract: the pruned result `r` bounds the true
value `v` from the proper side when it falls outside the window and
equals it inside. -/
def failSoft (r v alpha beta : Score) : Prop :=
  (r ≤ alpha → v ≤ r) ∧ (beta ≤ r → r ≤ v) ∧ (alpha < r → r < beta → r = v)

theorem failSoft_self (r alpha beta : Score) : failSoft r r alpha beta :=
  ⟨fun _ => le_refl r, fun _ => le_refl r, fun _ _ => rfl⟩

theorem fullMinimax_bounds :
    ∀ (d : Nat) (board : Board) (isMax : Bool),
      ⊥ < fullMinimax board d isMax ∧ fullMinimax board d isMax < ⊤ := by
  intro d
  induction d with
  | zero =>
    intro board isMax
    rw [fullMinimax_eq]
    cases evaluateEndGame board (if isMax then Player.agatha else Player.human) with
    | some e =>
      cases isMax
      · exact ⟨bot_lt_sc _, sc_lt_top _⟩
      · exact ⟨bot_lt_sc _, sc_lt_top _⟩
    | none => exact ⟨bot_lt_sc _, sc_lt_top _⟩
  | succ d ih =>
    intro board isMax
    rw [fullMinimax_eq]
    cases evaluateEndGame board (if isMax then Player.agatha else Player.human) with
    | some e =>
      cases isMax
      · exact ⟨bot_lt_sc _, sc_lt_top _⟩
      · exact ⟨bot_lt_sc _, sc_lt_top _⟩
    | none =>
      dsimp only
      by_cases hlen :
          (getAllValidMoves board (if isMax then Player.agatha else Player.human)).length = 0
      · rw [if_pos hlen]
        cases isMax
        · exact ⟨bot_lt_sc _, sc_lt_top _⟩
        · exact ⟨bot_lt_sc _, sc_lt_top _⟩
      · rw [if_neg hlen]
        cases hmoves :
            getAllValidMoves board (if isMax then Player.agatha else Player.human) with
        | nil => rw [hmoves] at hlen; simp at hlen
        | cons m tl =>
          cases isMax with
          | true =>
            rw [if_pos rfl]
            constructor
            · rw [List.foldl_cons]
              exact lt_of_lt_of_le
                (lt_of_lt_of_le (ih (simulateMove board m) false).1
                  (le_max_right ⊥ _))
                (le_foldl_max _ tl _)
            · exact foldl_max_lt _ (m :: tl) ⊥ ⊤
                (lt_of_lt_of_le (bot_lt_sc 0) (le_top))
                fun x _ => (ih (simulateMove board x) false).2
          | false =>
            rw [if_neg (by simp)]
            constructor
            · exact lt_foldl_min _ (m :: tl) ⊤ ⊥
                (lt_of_le_of_lt bot_le (sc_lt_top 0))
                fun x _ => (ih (simulateMove board x) true).1
            · rw [List.foldl_cons]
              exact lt_of_le_of_lt
                (le_trans (foldl_min_le _ tl _) (min_le_right ⊤ _))
                (ih (simulateMove board m) true).2

theorem le_max_elim {α : Type*} [LinearOrder α] {r x y : α}
    (h : r ≤ max x y) (hx : x < r) : r ≤ y := by
  rcases le_max_iff.mp h with h' | h'
  · exact absurd (lt_of_lt_of_le hx h') (lt_irrefl x)
  · exact h'

theorem eq_max_elim {α : Type*} [LinearOrder α] {r x y : α}
    (h : r = max x y) (hx : x < r) : r = y := by
  rcases max_cases x y with ⟨hm, _⟩ | ⟨hm, _⟩ <;> rw [hm] at h
  · exfalso
    rw [h] at hx
    exact lt_irrefl x hx
  · exact h

theorem min_le_elim {α : Type*} [LinearOrder α] {r x y : α}
    (h : min x y ≤ r) (hx : r < x) : y ≤ r := by
  rcases min_le_iff.mp h with h' | h'
  · exact absurd (lt_of_le_of_lt h' hx) (lt_irrefl x)
  · exact h'

theorem eq_min_elim {α : Type*} [LinearOrder α] {r x y : α}
    (h : r = min x y) (hx : r < x) : r = y := by
  rcases min_cases x y with ⟨hm, _⟩ | ⟨hm, _⟩ <;> rw [hm] at h
  · exfalso
    rw [h] at hx
    exact lt_irrefl x hx
  · exact h

theorem abMaxGo_cons (child : Board → Score → Score → Score) (board : Board)
    (beta : Score) (m : Move) (rest : List Move) (a ms : Score) :
    abMaxGo child board beta (m :: rest) a ms =
      if beta ≤ max a (child (simulateMove board m) a beta) then
        max ms (child (simulateMove board m) a beta)
      else
        abMaxGo child board beta rest (max a (child (simulateMove board m) a beta))
          (max ms (child (simulateMove board m) a beta)) := rfl

theorem abMaxGo_spec (child : Board → Score → Score → Score) (F : Move → Score)
    (board : Board) (beta : Score) :
    ∀ (l : List Move) (a ms : Score),
      ms ≤ a → a < beta →
      (∀ m ∈ l, ∀ a', a' < beta →
        failSoft (child (simulateMove board m) a' beta) (F m) a' beta) →
      ms ≤ abMaxGo child board beta l a ms ∧
      (abMaxGo child board beta l a ms ≤ a →
        l.foldl (fun acc m => max acc (F m)) ms ≤ abMaxGo child board beta l a ms) ∧
      (beta ≤ abMaxGo child board beta l a ms →
        abMaxGo child board beta l a ms ≤ l.foldl (fun acc m => max acc (F m)) ms) ∧
      (a < abMaxGo child board beta l a ms →
        abMaxGo child board beta l a ms < beta →
        abMaxGo child board beta l a ms = l.foldl (fun acc m => max acc (F m)) ms) := by
  intro l
  induction l with
  | nil =>
    intro a ms hms hab _
    exact ⟨le_refl ms, fun _ => le_refl ms, fun _ => le_refl ms, fun _ _ => rfl⟩
  | cons m rest ih =>
    intro a ms hms hab hchild
    obtain ⟨hlow, hhigh, hexact⟩ := hchild m (List.mem_cons_self m rest) a hab
    rw [abMaxGo_cons, List.foldl_cons]
    generalize hs : child (simulateMove board m) a beta = s at hlow hhigh hexact ⊢
    by_cases hcut : beta ≤ max a s
    · rw [if_pos hcut]
      have hbs : beta ≤ s := by
        rcases le_total s a with h | h
        · exact absurd (le_trans hcut (max_le (le_refl a) h)) (not_le.mpr hab)
        · rwa [max_eq_right h] at hcut
      have hsF : s ≤ F m := hhigh hbs
      refine ⟨le_max_left ms s, ?_, ?_, ?_⟩
      · intro hra
        exact absurd
          (lt_of_lt_of_le hab (le_trans hbs (le_trans (le_max_right ms s) hra)))
          (lt_irrefl a)
      · intro _
        exact le_trans (max_le_max (le_refl ms) hsF)
          (le_foldl_max F rest (max ms (F m)))
      · intro _ hrb
        exact absurd (lt_of_le_of_lt (le_trans hbs (le_max_right ms s)) hrb)
          (lt_irrefl beta)
    · rw [if_neg hcut]
      have hab' : max a s < beta := not_le.mp hcut
      have hms' : max ms s ≤ max a s := max_le_max hms (le_refl s)
      obtain ⟨ih1, ih2, ih3, ih4⟩ := ih (max a s) (max ms s) hms' hab'
        fun m' hm' => hchild m' (List.mem_cons_of_mem m hm')
      have hsplitF := foldl_max_bot F rest (max ms (F m))
      have hsplitS := foldl_max_bot F rest (max ms s)
      rcases lt_or_le a s with has | hsa
      · have hsb : s < beta := lt_of_le_of_lt (le_max_right a s) hab'
        have hsF : s = F m := hexact has hsb
        rw [← hsF]
        refine ⟨le_trans (le_max_left ms s) ih1, ?_, ih3, ?_⟩
        · intro hra
          exact absurd
            (lt_of_lt_of_le has (le_trans (le_max_right ms s) (le_trans ih1 hra)))
            (lt_irrefl a)
        · intro har hrb
          rcases le_or_lt (abMaxGo child board beta rest (max a s) (max ms s))
              (max a s) with hrle | hrgt
          · have h1 := ih2 hrle
            have h2 : abMaxGo child board beta rest (max a s) (max ms s) ≤
                rest.foldl (fun acc m' => max acc (F m')) (max ms s) := by
              refine le_trans hrle ?_
              rw [max_eq_right (le_of_lt has)]
              exact le_trans (le_max_right ms s) (le_foldl_max F rest (max ms s))
            exact le_antisymm h2 h1
          · exact ih4 hrgt hrb
      · have hFs : F m ≤ s := hlow hsa
        have hma : max a s = a := max_eq_left hsa
        rw [hma] at ih1 ih2 ih3 ih4
        rw [hma]
        have hmono : rest.foldl (fun acc m' => max acc (F m')) (max ms (F m)) ≤
            rest.foldl (fun acc m' => max acc (F m')) (max ms s) := by
          rw [hsplitF, hsplitS]
          exact max_le_max (max_le_max (le_refl ms) hFs) (le_refl _)
        refine ⟨le_trans (le_max_left ms s) ih1, ?_, ?_, ?_⟩
        · intro hra
          exact le_trans hmono (ih2 hra)
        · intro hbr
          have h1 := ih3 hbr
          rw [hsplitS] at h1
          have hlt : max ms s < abMaxGo child board beta rest a (max ms s) :=
            lt_of_le_of_lt (max_le hms hsa) (lt_of_lt_of_le hab hbr)
          have hR := le_max_elim h1 hlt
          rw [hsplitF]
          exact le_trans hR (le_max_right _ _)
        · intro har hrb
          have h1 := ih4 har hrb
          rw [hsplitS] at h1
          have hR := eq_max_elim h1 (lt_of_le_of_lt (max_le hms hsa) har)
          have hlt2 : max ms (F m) <
              rest.foldl (fun acc m' => max acc (F m')) ⊥ := by
            rw [← hR]
            exact lt_of_le_of_lt (max_le hms (le_trans hFs hsa)) har
          rw [hsplitF, max_eq_right (le_of_lt hlt2)]
          exact hR

theorem abMinGo_cons (child : Board → Score → Score → Score) (board : Board)
    (alpha : Score) (m : Move) (rest : List Move) (b msc : Score) :
    abMinGo child board alpha (m :: rest) b msc =
      if min b (child (simulateMove board m) alpha b) ≤ alpha then
        min msc (child (simulateMove board m) alpha b)
      else
        abMinGo child board alpha rest (min b (child (simulateMove board m) alpha b))
          (min msc (child (simulateMove board m) alpha b)) := rfl

theorem abMinGo_spec (child : Board → Score → Score → Score) (F : Move → Score)
    (board : Board) (alpha : Score) :
    ∀ (l : List Move) (b msc : Score),
      b ≤ msc → alpha < b →
      (∀ m ∈ l, ∀ b', alpha < b' →
        failSoft (child (simulateMove board m) alpha b') (F m) alpha b') →
      abMinGo child board alpha l b msc ≤ msc ∧
      (b ≤ abMinGo child board alpha l b msc →
        abMinGo child board alpha l b msc ≤ l.foldl (fun acc m => min acc (F m)) msc) ∧
      (abMinGo child board alpha l b msc ≤ alpha →
        l.foldl (fun acc m => min acc (F m)) msc ≤ abMinGo child board alpha l b msc) ∧
      (alpha < abMinGo child board alpha l b msc →
        abMinGo child board alpha l b msc < b →
        abMinGo child board alpha l b msc = l.foldl (fun acc m => min acc (F m)) msc) := by
  intro l
  induction l with
  | nil =>
    intro b msc hbm hab _
    exact ⟨le_refl msc, fun _ => le_refl msc, fun _ => le_refl msc, fun _ _ => rfl⟩
  | cons m rest ih =>
    intro b msc hbm hab hchild
    obtain ⟨hlow, hhigh, hexact⟩ := hchild m (List.mem_cons_self m rest) b hab
    rw [abMinGo_cons, List.foldl_cons]
    generalize hs : child (simulateMove board m) alpha b = s at hlow hhigh hexact ⊢
    by_cases hcut : min b s ≤ alpha
    · rw [if_pos hcut]
      have hsa : s ≤ alpha := by
        rcases le_total b s with h | h
        · exact absurd (le_trans (le_min (le_refl b) h) hcut) (not_le.mpr hab)
        · rwa [min_eq_right h] at hcut
      have hFs : F m ≤ s := hlow hsa
      refine ⟨min_le_left msc s, ?_, ?_, ?_⟩
      · intro hbr
        exact absurd
          (lt_of_le_of_lt (le_trans hbr (le_trans (min_le_right msc s) hsa)) hab)
          (lt_irrefl b)
      · intro _
        exact le_trans (foldl_min_le F rest (min msc (F m)))
          (min_le_min (le_refl msc) hFs)
      · intro har _
        exact absurd (lt_of_lt_of_le har (le_trans (min_le_right msc s) hsa))
          (lt_irrefl alpha)
    · rw [if_neg hcut]
      have hab' : alpha < min b s := not_le.mp hcut
      have hmsc' : min b s ≤ min msc s := min_le_min hbm (le_refl s)
      obtain ⟨ih1, ih2, ih3, ih4⟩ := ih (min b s) (min msc s) hmsc' hab'
        fun m' hm' => hchild m' (List.mem_cons_of_mem m hm')
      have hsplitF := foldl_min_top F rest (min msc (F m))
      have hsplitS := foldl_min_top F rest (min msc s)
      rcases lt_or_le s b with has | hsa
      · have hsb : alpha < s := lt_of_lt_of_le hab' (min_le_right b s)
        have hsF : s = F m := hexact hsb has
        rw [← hsF]
        refine ⟨le_trans ih1 (min_le_left msc s), ?_, ih3, ?_⟩
        · intro hbr
          exact absurd
            (lt_of_le_of_lt (le_trans hbr (le_trans ih1 (min_le_right msc s))) has)
            (lt_irrefl b)
        · intro har hrb
          rcases le_or_lt (min b s)
              (abMinGo child board alpha rest (min b s) (min msc s)) with hrle | hrgt
          · have h1 := ih2 hrle
            have h2 : rest.foldl (fun acc m' => min acc (F m')) (min msc s) ≤
                abMinGo child board alpha rest (min b s) (min msc s) := by
              refine le_trans ?_ hrle
              rw [min_eq_right (le_of_lt has)]
              exact le_trans (foldl_min_le F rest (min msc s)) (min_le_right msc s)
            exact le_antisymm h1 h2
          · exact ih4 har hrgt
      · have hsF : s ≤ F m := hhigh hsa
        have hmb : min b s = b := min_eq_left hsa
        rw [hmb] at ih1 ih2 ih3 ih4
        rw [hmb]
        have hmono : rest.foldl (fun acc m' => min acc (F m')) (min msc s) ≤
            rest.foldl (fun acc m' => min acc (F m')) (min msc (F m)) := by
          rw [hsplitF, hsplitS]
          exact min_le_min (min_le_min (le_refl msc) hsF) (le_refl _)
        refine ⟨le_trans ih1 (min_le_left msc s), ?_, ?_, ?_⟩
        · intro hbr
          exact le_trans (ih2 hbr) hmono
        · intro hra
          have h1 := ih3 hra
          rw [hsplitS] at h1
          have hlt : abMinGo child board alpha rest b (min msc s) < min msc s :=
            lt_of_le_of_lt hra (lt_of_lt_of_le hab (le_min hbm hsa))
          have hR := min_le_elim h1 hlt
          rw [hsplitF]
          exact le_trans (min_le_right _ _) hR
        · intro har hrb
          have h1 := ih4 har hrb
          rw [hsplitS] at h1
          have hR := eq_min_elim h1 (lt_of_lt_of_le hrb (le_min hbm hsa))
          have hlt2 : rest.foldl (fun acc m' => min acc (F m')) ⊤ < min msc (F m) := by
            rw [← hR]
            exact lt_of_lt_of_le hrb (le_min hbm (le_trans hsa hsF))
          rw [hsplitF, min_eq_right (le_of_lt hlt2)]
          exact hR

theorem foldl_max_orderMoves (g : Move → Score) (l : List Move) (i : Score) :
    (orderMoves l).foldl (fun acc m => max acc (g m)) i =
      l.foldl (fun acc m => max acc (g m)) i := by
  have inst : RightCommutative fun (acc : Score) m => max acc (g m) :=
    ⟨fun acc x y => by rw [max_assoc, max_comm (g x), ← max_assoc]⟩
  exact (List.perm_insertionSort _ l).foldl_eq i

theorem foldl_min_orderMoves (g : Move → Score) (l : List Move) (i : Score) :
    (orderMoves l).foldl (fun acc m => min acc (g m)) i =
      l.foldl (fun acc m => min acc (g m)) i := by
  have inst : RightCommutative fun (acc : Score) m => min acc (g m) :=
    ⟨fun acc x y => by rw [min_assoc, min_comm (g x), ← min_assoc]⟩
  exact (List.perm_insertionSort _ l).foldl_eq i

theorem minimax_failSoft :
    ∀ (d : Nat) (board : Board) (alpha beta : Score) (isMax : Bool),
      alpha < beta →
      failSoft (minimax board d alpha beta isMax) (fullMinimax board d isMax)
        alpha beta := by
  intro d
  induction d with
  | zero =>
    intro board alpha beta isMax hab
    rw [minimax_eq, fullMinimax_eq]
    cases evaluateEndGame board (if isMax then Player.agatha else Player.human) with
    | some e => exact failSoft_self _ _ _
    | none => exact failSoft_self _ _ _
  | succ d ih =>
    intro board alpha beta isMax hab
    cases isMax with
    | true =>
      rw [minimax_eq, fullMinimax_eq]
      simp only [reduceIte]
      cases evaluateEndGame board Player.agatha with
      | some e => exact failSoft_self _ _ _
      | none =>
        dsimp only
        by_cases hlen : (getAllValidMoves board Player.agatha).length = 0
        · rw [if_pos hlen, if_pos hlen]
          exact failSoft_self _ _ _
        · rw [if_neg hlen, if_neg hlen]
          obtain ⟨h1, h2, h3, h4⟩ := abMaxGo_spec
            (fun b a bt => minimax b d a bt false)
            (fun mv => fullMinimax (simulateMove board mv) d false) board beta
            (orderMoves (getAllValidMoves board Player.agatha)) alpha ⊥ bot_le hab
            fun m _ a' ha' => ih (simulateMove board m) a' beta false ha'
          rw [foldl_max_orderMoves] at h2 h3 h4
          exact ⟨h2, h3, h4⟩
    | false =>
      rw [minimax_eq, fullMinimax_eq]
      simp only [reduceIte, Bool.false_eq_true]
      cases evaluateEndGame board Player.human with
      | some e => exact failSoft_self _ _ _
      | none =>
        dsimp only
        by_cases hlen : (getAllValidMoves board Player.human).length = 0
        · rw [if_pos hlen, if_pos hlen]
          exact failSoft_self _ _ _
        · rw [if_neg hlen, if_neg hlen]
          obtain ⟨h1, h2, h3, h4⟩ := abMinGo_spec
            (fun b a bt => minimax b d a bt true)
            (fun mv => fullMinimax (simulateMove board mv) d true) board alpha
            (orderMoves (getAllValidMoves board Player.human)) beta ⊤ le_top hab
            fun m _ b' hb' => ih (simulateMove board m) alpha b' true hb'
          rw [foldl_min_orderMoves] at h2 h3 h4
          exact ⟨h3, h2, h4⟩

theorem rootLoop_cons (board : Board) (d : Nat) (m : Move) (rest : List Move)
    (best : Option Move) (bestScore alpha : Score) :
    rootLoop board d (m :: rest) best bestScore alpha =
      if bestScore < minimax (simulateMove board m) d alpha ⊤ false then
        rootLoop board d rest (some m) (minimax (simulateMove board m) d alpha ⊤ false)
          (max alpha (minimax (simulateMove board m) d alpha ⊤ false))
      else rootLoop board d rest best bestScore
        (max alpha (minimax (simulateMove board m) d alpha ⊤ false)) := rfl

theorem rootLoop_spec (board : Board) (d : Nat) :
    ∀ (l : List Move) (best : Option Move) (bestScore : Score),
      bestScore < ⊤ →
      ((best = none ∧ bestScore = ⊥) ∨
        (∃ mv0, best = some mv0 ∧
          fullMinimax (simulateMove board mv0) d false = bestScore)) →
      ((rootLoop board d l best bestScore bestScore = none ∧ best = none) ∨
        (∃ mv, rootLoop board d l best bestScore bestScore = some mv ∧
          fullMinimax (simulateMove board mv) d false =
            l.foldl (fun acc m =>
              max acc (fullMinimax (simulateMove board m) d false)) bestScore)) := by
  intro l
  induction l with
  | nil =>
    intro best bestScore hlt hinv
    rcases hinv with ⟨hb, _⟩ | ⟨mv0, hb, hf⟩
    · exact Or.inl ⟨by rw [show rootLoop board d [] best bestScore bestScore = best
        from rfl, hb], hb⟩
    · exact Or.inr ⟨mv0, by rw [show rootLoop board d [] best bestScore bestScore = best
        from rfl, hb], hf⟩
  | cons m rest ihl =>
    intro best bestScore hlt hinv
    obtain ⟨hlow, hhigh, hexact⟩ :=
      minimax_failSoft d (simulateMove board m) bestScore ⊤ false hlt
    obtain ⟨hFb, hFt⟩ := fullMinimax_bounds d (simulateMove board m) false
    rw [rootLoop_cons, List.foldl_cons]
    generalize hsdef : minimax (simulateMove board m) d bestScore ⊤ false = s
      at hlow hhigh hexact ⊢
    by_cases hup : bestScore < s
    · rw [if_pos hup]
      have hst : s < ⊤ := by
        rcases lt_or_le s ⊤ with h | h
        · exact h
        · exact absurd (lt_of_le_of_lt (le_trans h (hhigh h)) hFt) (lt_irrefl _)
      have hsF : s = fullMinimax (simulateMove board m) d false := hexact hup hst
      have hmax : max bestScore s = s := max_eq_right (le_of_lt hup)
      rw [hmax]
      rcases ihl (some m) s hst (Or.inr ⟨m, rfl, hsF.symm⟩) with
        ⟨hres, hbest⟩ | ⟨mv, hres, hval⟩
      · exact Option.noConfusion hbest
      · refine Or.inr ⟨mv, hres, ?_⟩
        rw [hval, ← hsF, hmax]
    · rw [if_neg hup]
      have hsb : s ≤ bestScore := not_lt.mp hup
      have hFle : fullMinimax (simulateMove board m) d false ≤ bestScore :=
        le_trans (hlow hsb) hsb
      have hmax : max bestScore s = bestScore := max_eq_left hsb
      rw [hmax]
      have hmaxF : max bestScore (fullMinimax (simulateMove board m) d false) =
          bestScore := max_eq_left hFle
      rw [hmaxF]
      exact ihl best bestScore hlt hinv

/-- C1: the move selected by `getBestMove` (alpha-beta pruning over the
ordered moves) has a full-minimax value — `fullMinimax`, the
specification's reference search with no pruning and no move ordering —
equal to the maximum full-minimax value among all of Agatha's root
moves: pruning and the ordering heuristic never change the chosen
move's true score.  (`depth ≥ 1` keeps the `Nat` depth arithmetic of the
embedding aligned with the source, whose root calls use `depth - 1`.) -/
theorem getBestMove_fullMinimax (board : Board) (depth : Nat) (mv : Move)
    (hdep : 1 ≤ depth) (hmv : getBestMove board depth = some mv) :
    fullMinimax (simulateMove board mv) (depth - 1) false =
      (getAllValidMoves board Player.agatha).foldl
        (fun acc m =>
          max acc (fullMinimax (simulateMove board m) (depth - 1) false)) ⊥ := by
  unfold getBestMove at hmv
  cases hmoves : getAllValidMoves board Player.agatha with
  | nil =>
    rw [hmoves] at hmv
    exact Option.noConfusion hmv
  | cons m1 tl =>
    cases tl with
    | nil =>
      rw [hmoves] at hmv
      have hm : m1 = mv := Option.some.inj hmv
      subst hm
      rw [List.foldl_cons, List.foldl_nil, max_eq_right bot_le]
    | cons m2 rest =>
      rw [hmoves] at hmv
      dsimp only at hmv
      have hbt : (⊥ : Score) < ⊤ := lt_trans (bot_lt_sc 0) (sc_lt_top 0)
      rcases rootLoop_spec board (depth - 1) (orderMoves (m1 :: m2 :: rest)) none ⊥
          hbt (Or.inl ⟨rfl, rfl⟩) with ⟨hres, _⟩ | ⟨mv', hres, hval⟩
      · rw [hmv] at hres
        exact Option.noConfusion hres
      · rw [hmv] at hres
        rw [← Option.some.inj hres] at hval
        rw [hval, foldl_max_orderMoves]

/-- Fixture for the alpha-beta equivalence witness: an Agatha man at
(1,2) with two simple moves, a human man at (6,1). -/
def c1Board : Board := boardWith [aman 1 2, hman 6 1]

/-- The move `getBestMove` selects on `c1Board` at depth 2. -/
def c1Move : Move :=
  { fromPos := { row := 1, col := 2 }, toPos := { row := 2, col := 3 },
    captures := [], isPromotion := false }

/-- Witness for `getBestMove_fullMinimax`: on the concrete two-move
board the pruned, ordered search selects a move whose unpruned
full-minimax value is the best among Agatha's root moves. -/
theorem getBestMove_fullMinimax_witness :
    (getAllValidMoves c1Board Player.agatha).length = 2 ∧
    1 ≤ 2 ∧ getBestMove c1Board 2 = some c1Move ∧
    fullMinimax (simulateMove c1Board c1Move) (2 - 1) false =
      (getAllValidMoves c1Board Player.agatha).foldl
        (fun acc m =>
          max acc (fullMinimax (simulateMove c1Board m) (2 - 1) false)) ⊥ :=
  ⟨by decide, by decide, by decide,
   getBestMove_fullMinimax c1Board 2 c1Move (by decide) (by decide)⟩
